import Mathlib

/-!
Verification development for the quiz-chain solver service (solver.py).

The Python code is shallowly embedded: Python runtime values become the
inductive type PyVal, stateful iteration becomes an explicit fuel-indexed
loop over scripted network environments, and fallible operations return
Except/Option.  Library calls whose behaviour the program only observes
through their results (json.loads, json.dumps, str) are abstracted as a
PyLib record of function parameters; theorems quantify over them and
witnesses instantiate them concretely.  Character classes of the regular
expressions are modelled over ASCII, matching the data the program
handles.
-/

namespace QuizSolver

/-- Model of a Python runtime value as exchanged by solver.py: JSON-style
data plus Python None.  Floats are modelled as exact rationals, which is
faithful for every property proved here (no claim depends on binary
rounding). -/
inductive PyVal where
  | none
  | bool (b : Bool)
  | int (n : Int)
  | float (q : Rat)
  | str (s : String)
  | list (xs : List PyVal)
  | dict (kvs : List (String × PyVal))

/-- Model of the Python test "v is None". -/
def PyVal.isNone : PyVal → Bool
  | .none => true
  | _ => false

/-- First-match association lookup, modelling Python dict key access
(dict keys are unique at runtime, so first-match is faithful). -/
def pyLookup : List (String × PyVal) → String → Option PyVal
  | [], _ => Option.none
  | (k, v) :: rest, key => if k = key then some v else pyLookup rest key

/-- Model of dict.get(key, default). -/
def pyGet (kvs : List (String × PyVal)) (key : String) (default : PyVal) : PyVal :=
  (pyLookup kvs key).getD default

/-- Python truthiness of a value (bool(v)). -/
def pyTruthy : PyVal → Bool
  | .none => false
  | .bool b => b
  | .int n => n != 0
  | .float q => q != 0
  | .str s => s != ""
  | .list xs => !xs.isEmpty
  | .dict kvs => !kvs.isEmpty

/-- ASCII whitespace as stripped by str.strip() and matched by the regex
class \s (unicode whitespace is not modelled). -/
def isPyWs (c : Char) : Bool :=
  c = ' ' || c = '\t' || c = '\n' || c = '\r' || c = '\x0b' || c = '\x0c'

/-- str.strip() on a character list. -/
def pyStripList (cs : List Char) : List Char :=
  ((cs.dropWhile isPyWs).reverse.dropWhile isPyWs).reverse

/-- str.strip() on a string. -/
def pyStrip (s : String) : String := (pyStripList s.toList).asString

/-- str.lower() (ASCII). -/
def lowerStr (s : String) : String := (s.toList.map Char.toLower).asString

/-- Contiguous-substring test on character lists ("pat in cs"). -/
def hasSubstr (pat : List Char) : List Char → Bool
  | [] => pat.isEmpty
  | c :: rest => pat.isPrefixOf (c :: rest) || hasSubstr pat rest

/-- The Python library functions solver.py calls on data it then inspects,
abstracted as parameters: jsonLoads returns Option.none when json.loads
raises, jsonDumps returns Option.none when json.dumps raises, and str is
Python str(). -/
structure PyLib where
  jsonLoads : String → Option PyVal
  jsonDumps : PyVal → Option String
  str : PyVal → String

/-! ### Answer normalization (solver.py lines 38-127) -/

/-- Digit test for the regex class \d (ASCII). -/
def isDigitChar (c : Char) : Bool := '0' ≤ c && c ≤ '9'

/-- Full match of the regular expression -?\d+ on a character list. -/
def intLitChars : List Char → Bool
  | '-' :: ds => !ds.isEmpty && ds.all isDigitChar
  | ds => !ds.isEmpty && ds.all isDigitChar

/-- Numeric value of a digit run. -/
def digitsVal (ds : List Char) : Nat :=
  ds.foldl (fun acc c => 10 * acc + (c.toNat - '0'.toNat)) 0

/-- Value of an integer literal, modelling Python int() on a string that
fully matches -?\d+. -/
def intLitVal : List Char → Int
  | '-' :: ds => -(digitsVal ds : Int)
  | ds => (digitsVal ds : Int)

/-- Full match of \d+\.\d+ on a character list. -/
def floatLitCore (ds : List Char) : Bool :=
  match ds.drop (ds.takeWhile isDigitChar).length with
  | '.' :: fp => !(ds.takeWhile isDigitChar).isEmpty && !fp.isEmpty && fp.all isDigitChar
  | _ => false

/-- Full match of the regular expression -?\d+\.\d+ on a character list. -/
def floatLitChars : List Char → Bool
  | '-' :: ds => floatLitCore ds
  | ds => floatLitCore ds

/-- Decimal value of a \d+\.\d+ literal. -/
def floatCoreVal (ds : List Char) : Rat :=
  let ip := ds.takeWhile isDigitChar
  let fp := (ds.drop (ip.length + 1))
  (digitsVal ip : Rat) + (digitsVal fp : Rat) / ((10 : Rat) ^ fp.length)

/-- Value of a decimal literal, modelling Python float() on a string that
fully matches -?\d+\.\d+ (such values are exactly representable as the
stated decimal for the purposes of the claims proved here). -/
def floatLitVal : List Char → Rat
  | '-' :: ds => -(floatCoreVal ds)
  | ds => floatCoreVal ds

/-- Model of _attempt_number (solver.py lines 44-52): the trimmed string is
matched in full against -?\d+ then -?\d+\.\d+ and converted accordingly;
Option.none models Python None. -/
def _attempt_number (value : String) : Option PyVal :=
  let v := pyStrip value
  if intLitChars v.toList then some (.int (intLitVal v.toList))
  else if floatLitChars v.toList then some (.float (floatLitVal v.toList))
  else Option.none

/-- Model of _attempt_boolean (solver.py lines 54-60). -/
def _attempt_boolean (value : String) : Option Bool :=
  let v := lowerStr (pyStrip value)
  if v = "true" || v = "yes" || v = "y" then some true
  else if v = "false" || v = "no" || v = "n" then some false
  else Option.none

/-- Model of isinstance(v, (str, int, float, bool)). -/
def isPrimitive : PyVal → Bool
  | .str _ => true
  | .int _ => true
  | .float _ => true
  | .bool _ => true
  | _ => false

/-- Model of _flatten_answer_object (solver.py lines 62-80): if the mapping
has an "answer" key, return that value when primitive, otherwise its
json.dumps serialization (falling back to str on a dumps failure); with no
"answer" key, return the mapping with non-primitive values stringified. -/
def _flatten_answer_object (L : PyLib) (obj : List (String × PyVal)) : PyVal :=
  match pyLookup obj "answer" with
  | some v =>
      if isPrimitive v then v
      else
        match L.jsonDumps v with
        | some s => .str s
        | Option.none => .str (L.str v)
  | Option.none =>
      .dict (obj.map (fun kv => (kv.1, if isPrimitive kv.2 then kv.2 else .str (L.str kv.2))))

/-- Steps 4 and 5 of the string branch of _normalize_answer_for_submission:
the base64-URI check and the plain-string fallback (both return the
stripped string). -/
def _normalize_str_tail (s : String) : PyVal :=
  if "data:".toList.isPrefixOf s.toList && hasSubstr ";base64,".toList s.toList then .str s
  else .str s

/-- Model of _normalize_answer_for_submission (solver.py lines 82-127).
Note that json.loads returning Python None (JSON null) is indistinguishable
in the source from a parse failure, since _attempt_json_parse returns None
on an exception and the caller tests "j is not None". -/
def _normalize_answer_for_submission (L : PyLib) (answer : PyVal) : PyVal :=
  match answer with
  | .int n => .int n
  | .float q => .float q
  | .bool b => .bool b
  | .dict kvs => _flatten_answer_object L kvs
  | .str s0 =>
      let s := pyStrip s0
      match _attempt_boolean s with
      | some b => .bool b
      | Option.none =>
          match _attempt_number s with
          | some nv => nv
          | Option.none =>
              match L.jsonLoads s with
              | some j =>
                  if j.isNone then _normalize_str_tail s
                  else
                    match j with
                    | .dict kvs => _flatten_answer_object L kvs
                    | _ => j
              | Option.none => _normalize_str_tail s
  | v => .str (L.str v)

/-! ### Secret extraction (solver.py lines 162-181)

The three patterns are modelled directly as leftmost-match searches over
character lists, following Python re.search semantics (leftmost starting
position, greedy quantifiers with backtracking).  Word characters follow
the ASCII reading of \w. -/

/-- ASCII \w: letters, digits, underscore. -/
def wordCharB (c : Char) : Bool := c.isAlphanum || c = '_'

/-- Case-insensitive comparison of a subject character against a lowercase
pattern letter, modelling re.IGNORECASE on ASCII letters. -/
def ciEq (c base : Char) : Bool := c = base || c = base.toUpper

/-- Attempt of the pattern (tds\x7b[^\x7d]+\x7d) at the current position:
the literal "tds" (case-insensitive) and an open brace, then at least one
non-close-brace character up to a mandatory close brace.  The greedy
[^\x7d]+ runs exactly to the first close brace. -/
def matchTds : List Char → Option (List Char)
  | t :: d :: s :: '\x7b' :: rest =>
      if ciEq t 't' && ciEq d 'd' && ciEq s 's' then
        match (rest.dropWhile (fun c => c ≠ '\x7d')).head? with
        | some _ =>
            if (rest.takeWhile (fun c => c ≠ '\x7d')).isEmpty then Option.none
            else some (t :: d :: s :: '\x7b' ::
              (rest.takeWhile (fun c => c ≠ '\x7d') ++ ['\x7d']))
        | Option.none => Option.none
      else Option.none
  | _ => Option.none

/-- re.search for pattern 1: try each position left to right. -/
def searchTds : List Char → Option (List Char)
  | [] => Option.none
  | c :: rest =>
      match matchTds (c :: rest) with
      | some m => some m
      | Option.none => searchTds rest

/-- The character class [A-Za-z0-9_\-] of pattern 2. -/
def cls2 (c : Char) : Bool := wordCharB c || c = '-'

/-- Wordness of the character at offset i of the candidate run, with the
character following the run (if any) standing in beyond the run; positions
past the end of the text count as non-word, as \b treats string edges. -/
def wordAt (run : List Char) (next : Option Char) (i : Nat) : Bool :=
  match run.get? i with
  | some c => wordCharB c
  | Option.none =>
      match next with
      | some c => wordCharB c
      | Option.none => false

/-- The trailing \b of pattern 2 after consuming j characters of the run. -/
def endBoundary (run : List Char) (next : Option Char) (j : Nat) : Bool :=
  wordAt run next (j - 1) != wordAt run next j

/-- Greedy backtracking for the trailing \b: the largest length j ≤ k with
j ≥ 6 whose end position is a word boundary. -/
def findEndLen (run : List Char) (next : Option Char) : Nat → Option Nat
  | 0 => Option.none
  | j + 1 =>
      if 6 ≤ j + 1 && endBoundary run next (j + 1) then some (j + 1)
      else findEndLen run next j

/-- Attempt of the pattern \b([A-Za-z0-9_\-]\x7b6,\x7d)\b at the current
position, given whether the preceding character is a word character: the
leading \b, then the maximal class run, backtracking to the longest
length of at least 6 ending at a word boundary. -/
def matchAlnum6 (prevWord : Bool) (cs : List Char) : Option (List Char) :=
  match cs.head? with
  | Option.none => Option.none
  | some c =>
      if cls2 c && (wordCharB c != prevWord) then
        let run := cs.takeWhile cls2
        match findEndLen run ((cs.dropWhile cls2).head?) run.length with
        | some j => some (run.take j)
        | Option.none => Option.none
      else Option.none

/-- re.search for pattern 2, tracking wordness of the previous character. -/
def searchAlnum6Aux (prevWord : Bool) : List Char → Option (List Char)
  | [] => Option.none
  | c :: rest =>
      match matchAlnum6 prevWord (c :: rest) with
      | some m => some m
      | Option.none => searchAlnum6Aux (wordCharB c) rest

/-- re.search for pattern 2 from the start of the text. -/
def searchAlnum6 (cs : List Char) : Option (List Char) := searchAlnum6Aux false cs

/-- The character class [A-Za-z0-9_\-\x7b\x7d] of pattern 3. -/
def cls3 (c : Char) : Bool := wordCharB c || c = '-' || c = '\x7b' || c = '\x7d'

/-- The separator class [:\s] of pattern 3. -/
def skipCh (c : Char) : Bool := c = ':' || isPyWs c

/-- Attempt of the pattern secret[:\s]*([A-Za-z0-9_\-\x7b\x7d]\x7b4,\x7d)
at the current position: "secret" case-insensitively, greedy separator
skip (its class is disjoint from the capture class, so no backtracking
can help), then a capture of at least 4 class characters. -/
def matchSecretAt : List Char → Option (List Char)
  | c1 :: c2 :: c3 :: c4 :: c5 :: c6 :: rest =>
      if ciEq c1 's' && ciEq c2 'e' && ciEq c3 'c' && ciEq c4 'r' &&
          ciEq c5 'e' && ciEq c6 't' then
        let cap := (rest.dropWhile skipCh).takeWhile cls3
        if 4 ≤ cap.length then some cap else Option.none
      else Option.none
  | _ => Option.none

/-- re.search for pattern 3. -/
def searchSecretWord : List Char → Option (List Char)
  | [] => Option.none
  | c :: rest =>
      match matchSecretAt (c :: rest) with
      | some m => some m
      | Option.none => searchSecretWord rest

/-- Model of _extract_secret_from_text (solver.py lines 162-181): empty
text yields None, otherwise the three patterns are tried in order.  The
word-character functions above read \w and \b over ASCII, so this model
is faithful on ASCII text; Python re on str is Unicode-aware, which the
oracle-parameterized variants below capture. -/
def _extract_secret_from_text (text : String) : Option String :=
  if text = "" then Option.none
  else
    match searchTds text.toList with
    | some m => some m.asString
    | Option.none =>
        match searchAlnum6 text.toList with
        | some m => some m.asString
        | Option.none =>
            match searchSecretWord text.toList with
            | some m => some m.asString
            | Option.none => Option.none

/-! #### Unicode-aware variant of the second pattern

Python 3 re on str evaluates \w and \b against the Unicode tables.  The
explicit character classes of the patterns ([A-Za-z0-9_\-],
[A-Za-z0-9_\-\x7b\x7d], [^\x7d], the literal words) are ASCII by
construction, so only the wordness test of \b depends on the tables;
that dependency is abstracted as an oracle uw giving the wordness of
non-ASCII characters, while ASCII wordness is fixed. -/

/-- Unicode word-character test of Python \w on str: [A-Za-z0-9_] on
ASCII, the Unicode tables (oracle uw) beyond. -/
def wordCharW (uw : Char → Bool) (c : Char) : Bool :=
  if c.toNat < 128 then wordCharB c else uw c

/-- wordAt with Unicode-aware wordness. -/
def wordAtW (uw : Char → Bool) (run : List Char) (next : Option Char) (i : Nat) : Bool :=
  match run.get? i with
  | some c => wordCharW uw c
  | Option.none =>
      match next with
      | some c => wordCharW uw c
      | Option.none => false

/-- endBoundary with Unicode-aware wordness. -/
def endBoundaryW (uw : Char → Bool) (run : List Char) (next : Option Char) (j : Nat) :
    Bool :=
  wordAtW uw run next (j - 1) != wordAtW uw run next j

/-- findEndLen with Unicode-aware boundaries. -/
def findEndLenW (uw : Char → Bool) (run : List Char) (next : Option Char) :
    Nat → Option Nat
  | 0 => Option.none
  | j + 1 =>
      if 6 ≤ j + 1 && endBoundaryW uw run next (j + 1) then some (j + 1)
      else findEndLenW uw run next j

/-- Pattern 2 attempt with Unicode-aware \b: the capture class stays the
explicit ASCII [A-Za-z0-9_\-]. -/
def matchAlnum6W (uw : Char → Bool) (prevWord : Bool) (cs : List Char) :
    Option (List Char) :=
  match cs.head? with
  | Option.none => Option.none
  | some c =>
      if cls2 c && (wordCharW uw c != prevWord) then
        match findEndLenW uw (cs.takeWhile cls2) ((cs.dropWhile cls2).head?)
            (cs.takeWhile cls2).length with
        | some j => some ((cs.takeWhile cls2).take j)
        | Option.none => Option.none
      else Option.none

/-- re.search for pattern 2 with Unicode-aware \b. -/
def searchAlnum6AuxW (uw : Char → Bool) (prevWord : Bool) : List Char → Option (List Char)
  | [] => Option.none
  | c :: rest =>
      match matchAlnum6W uw prevWord (c :: rest) with
      | some m => some m
      | Option.none => searchAlnum6AuxW uw (wordCharW uw c) rest

/-- re.search for pattern 2 with Unicode-aware \b, from the start. -/
def searchAlnum6W (uw : Char → Bool) (cs : List Char) : Option (List Char) :=
  searchAlnum6AuxW uw false cs

/-- _extract_secret_from_text with Unicode-aware \b in the second
pattern (the first and third patterns use only explicit ASCII classes
and literals, exact on text free of non-ASCII whitespace and of
non-ASCII letters case-folding onto the pattern literals). -/
def _extract_secret_from_textW (uw : Char → Bool) (text : String) : Option String :=
  if text = "" then Option.none
  else
    match searchTds text.toList with
    | some m => some m.asString
    | Option.none =>
        match searchAlnum6W uw text.toList with
        | some m => some m.asString
        | Option.none =>
            match searchSecretWord text.toList with
            | some m => some m.asString
            | Option.none => Option.none

/-- The fragment of the Unicode word-character table used by the
counterexample text: U+00E9 (a lowercase letter, hence a Python word
character). -/
def uwAcute : Char → Bool := fun c => c = 'é'

/-! ### Spreadsheet heuristic (solver.py lines 142-160)

The downloaded file, once parsed by pandas, is a dataframe: an ordered list
of named columns, each either of numeric dtype or not.  Numeric cells are
modelled as integers (int() on the column sum is then the identity, which
is faithful for every property claimed about this heuristic). -/

/-- A parsed dataframe column: numeric dtype or plain cells rendered as
strings. -/
inductive DCol where
  | num (name : String) (vals : List Int)
  | other (name : String) (vals : List String)

/-- Column name. -/
def DCol.colName : DCol → String
  | .num n _ => n
  | .other n _ => n

/-- Number of cells. -/
def DCol.len : DCol → Nat
  | .num _ vs => vs.length
  | .other _ vs => vs.length

/-- Cell at a row index as a Python value (rows never run past the column
in pandas; the default is never exercised on well-formed frames). -/
def DCol.cellAt : DCol → Nat → PyVal
  | .num _ vs, i => .int (vs.getD i 0)
  | .other _ vs, i => .str (vs.getD i "")

/-- A parsed dataframe. -/
structure DFrame where
  cols : List DCol

/-- Row count (all columns of a pandas frame have equal length). -/
def DFrame.nRows (df : DFrame) : Nat := (df.cols.map DCol.len).foldr max 0

/-- Model of df.to_dict("records"): one mapping per row, column name to
cell value, in column order. -/
def DFrame.toRecords (df : DFrame) : PyVal :=
  .list ((List.range df.nRows).map
    (fun i => .dict (df.cols.map (fun c => (c.colName, c.cellAt i)))))

/-- Model of df.select_dtypes("number").columns followed by the first
pick: the first column of numeric dtype, in column order. -/
def firstNumericCol : List DCol → Option (String × List Int)
  | [] => Option.none
  | .num n vs :: _ => some (n, vs)
  | .other _ _ :: rest => firstNumericCol rest

/-- Model of the decision logic of _download_and_process_file (solver.py
lines 154-160), after the download and pandas parse have produced the
dataframe: if the page text contains "sum" case-insensitively, return the
integer sum of the first numeric column when one exists; otherwise return
all rows as records. -/
def processParsedTable (df : DFrame) (contextText : String) : PyVal :=
  if hasSubstr "sum".toList (lowerStr contextText).toList then
    match firstNumericCol df.cols with
    | some (_, vs) => .int vs.sum
    | Option.none => df.toRecords
  else df.toRecords

/-! ### LLM call (solver.py lines 188-211) -/

/-- Falsiness of an optional environment string ("not AIPIPE_TOKEN" is
true for both an unset variable and an empty string). -/
def falsyOptStr : Option String → Bool
  | Option.none => true
  | some s => s = ""

/-- The observable outcome of the POST to the inference endpoint:
status code and the response body as parsed by resp.json()
(Option.none when the body is not JSON, in which case resp.json()
raises). -/
structure AipipeResp where
  status : Int
  jsonBody : Option PyVal

/-- Model of choices[0]: Python indexing with 0 on the value bound to
"choices"; anything not a nonempty list or string raises. -/
def pyIndex0 : PyVal → Except String PyVal
  | .list [] => .error "IndexError"
  | .list (x :: _) => .ok x
  | .str s =>
      match s.toList with
      | [] => .error "IndexError"
      | c :: _ => .ok (.str (String.mk [c]))
  | _ => .error "TypeError"

/-- Model of v[key] on a Python value: a KeyError on a missing key, a
TypeError off a dict. -/
def pyGetItem : PyVal → String → Except String PyVal
  | .dict kvs, k =>
      match pyLookup kvs k with
      | some v => .ok v
      | Option.none => .error "KeyError"
  | _, _ => .error "TypeError"

/-- Model of _call_aipipe (solver.py lines 188-211).  The POST itself is
supplied as net: a network-level failure, or the response.
raise_for_status raises on any non-2xx status; a response whose parsed
body has falsy "choices" (in particular an empty choices list) returns
the empty string; otherwise choices[0]["message"]["content"] is
extracted, raising on shape mismatches. -/
def _call_aipipe (token apUrl : Option String) (net : Except String AipipeResp) :
    Except String PyVal :=
  if falsyOptStr token || falsyOptStr apUrl then
    .error "AIPIPE_TOKEN or AIPIPE_URL not set"
  else
    match net with
    | .error m => .error m
    | .ok resp =>
        if resp.status < 200 ∨ 300 ≤ resp.status then .error "HTTPStatusError"
        else
          match resp.jsonBody with
          | Option.none => .error "JSONDecodeError"
          | some data =>
              match data with
              | .dict kvs =>
                  let choices := pyGet kvs "choices" (PyVal.list [])
                  if pyTruthy choices then
                    match pyIndex0 choices with
                    | .error m => .error m
                    | .ok c0 =>
                        match pyGetItem c0 "message" with
                        | .error m => .error m
                        | .ok msg => pyGetItem msg "content"
                  else .ok (.str "")
              | _ => .error "AttributeError"

/-- Failure discriminator on the aipipe call result. -/
def isFailure : Except String PyVal → Bool
  | .error _ => true
  | .ok _ => false

/-! ### Chain orchestrator (solver.py lines 282-383)

Each loop iteration performs up to five network operations; their outcomes
are scripted by an environment, one IterEnv per step number.  Exceptions
anywhere in an iteration are the Except.error cases; the iteration body
itself is pure and follows the source line by line. -/

/-- Model of the next-URL extraction (solver.py lines 347-359): the "url"
value of the parsed submission response; when that value is a string
starting with an open brace, json.loads is attempted on it and "url" is
taken from the nested object — if the nested parse fails, or the nested
value has no .get (is not a dict), the exception is swallowed and the
original string stands. -/
def extractNextUrl (L : PyLib) (parsed : PyVal) : PyVal :=
  match parsed with
  | .dict kvs =>
      match pyGet kvs "url" PyVal.none with
      | .str s =>
          if "\x7b".toList.isPrefixOf s.toList then
            match L.jsonLoads s with
            | some (.dict nkvs) => pyGet nkvs "url" PyVal.none
            | some _ => .str s
            | Option.none => .str s
          else .str s
      | v => v
  | _ => PyVal.none

/-- One Step Record: the dict built per iteration, with Option.none
modelling an absent key. -/
structure StepRecord where
  step : Int
  url : PyVal
  method : Option String
  fileError : Option String
  rawAnswer : Option PyVal
  submitStatus : Option Int
  submittedAnswer : Option PyVal
  submitParsed : Option PyVal
  nextUrl : Option PyVal
  error : Option String

/-- The record as first created: record = step and url only. -/
def StepRecord.base (sn : Int) (u : PyVal) : StepRecord :=
  { step := sn, url := u, method := Option.none, fileError := Option.none,
    rawAnswer := Option.none, submitStatus := Option.none,
    submittedAnswer := Option.none, submitParsed := Option.none,
    nextUrl := Option.none, error := Option.none }

/-- Scripted outcomes of the network operations of one iteration:
fetch is _fetch_text, scan the anchor pass producing the file link,
download the spreadsheet pipeline result, llm the _solve_page_with_llm
result, and submit the grading POST giving status code and parsed body.
An Except.error is an exception raised by that operation. -/
structure IterEnv where
  fetch : Except String String
  scan : Except String (Option String)
  download : Except String PyVal
  llm : Except String PyVal
  submit : Except String (Int × PyVal)

/-- Outcome of one loop iteration: append the record and stop, or append
it and continue with the next URL. -/
inductive IterOut where
  | halt (rec : StepRecord)
  | next (rec : StepRecord) (nu : PyVal)

/-- One iteration of the while loop of solve_quiz (solver.py lines
288-373): fetch, anchor scan, the answer cascade (file heuristic with
caught failures, then secret extraction, then the LLM), submission with
normalization, next-URL extraction, and the continue/stop decision.  Any
uncaught exception yields a halt whose record carries the error field and
exactly the fields set before the raise. -/
def runIter (L : PyLib) (e : IterEnv) (sn : Int) (u : PyVal) : IterOut :=
  let r0 := StepRecord.base sn u
  match e.fetch with
  | .error m => .halt { r0 with error := some m }
  | .ok pageText =>
      match e.scan with
      | .error m => .halt { r0 with error := some m }
      | .ok fileLink =>
          let st1 : StepRecord × PyVal :=
            match fileLink with
            | some _ =>
                match e.download with
                | .ok v => ({ r0 with method := some "file_heuristic" }, v)
                | .error m =>
                    ({ r0 with method := some "file_heuristic", fileError := some m },
                      PyVal.none)
            | Option.none => (r0, PyVal.none)
          let st2 : StepRecord × PyVal :=
            if st1.2.isNone then
              match _extract_secret_from_text pageText with
              | some s =>
                  if s ≠ "" then ({ st1.1 with method := some "extracted_secret" }, .str s)
                  else st1
              | Option.none => st1
            else st1
          let r2 := if st2.2.isNone then { st2.1 with method := some "aipipe" } else st2.1
          match (if st2.2.isNone then e.llm else .ok st2.2) with
          | .error m => .halt { r2 with error := some m }
          | .ok answer =>
              let r3 := { r2 with rawAnswer := some answer }
              match e.submit with
              | .error m => .halt { r3 with error := some m }
              | .ok (status, parsed) =>
                  let nu := extractNextUrl L parsed
                  let r4 := { r3 with
                    submitStatus := some status,
                    submittedAnswer := some (_normalize_answer_for_submission L answer),
                    submitParsed := some parsed,
                    nextUrl := some nu }
                  if pyTruthy nu then .next r4 nu else .halt r4

/-- The while loop of solve_quiz, with the iteration count bounded by
fuel.  The loop guard is the source's "current_url and step_no <
max_steps"; solve_quiz supplies fuel = max_steps.toNat so that fuel runs
out exactly when the guard fails, keeping the fuel-0 equation equal to
the guard-false exit. -/
def chainLoop (L : PyLib) (env : Nat → IterEnv) (maxSteps : Int) :
    Nat → Int → PyVal → List StepRecord → List StepRecord
  | 0, _, _, acc => acc
  | fuel + 1, stepNo, currentUrl, acc =>
      if pyTruthy currentUrl ∧ stepNo < maxSteps then
        match runIter L (env (stepNo + 1).toNat) (stepNo + 1) currentUrl with
        | .halt r => acc ++ [r]
        | .next r nu => chainLoop L env maxSteps fuel (stepNo + 1) nu (acc ++ [r])
      else acc

/-- The summary object returned by solve_quiz. -/
structure ChainResult where
  result : String
  steps_done : Int
  meets_required_steps : Bool
  steps : List StepRecord

/-- Model of solve_quiz (solver.py lines 282-383).  The email and access
secret flow only into the submission request, which the environment
absorbs, so they do not appear.  success is the source's
all(s.get("submit_status", 500) < 400 for s in steps). -/
def solve_quiz (L : PyLib) (env : Nat → IterEnv) (url : String)
    (required_min_steps : Int) (max_steps : Int) : ChainResult :=
  let steps := chainLoop L env max_steps max_steps.toNat 0 (.str url) []
  let total : Int := steps.length
  let success := steps.all (fun s => decide ((s.submitStatus.getD 500) < 400))
  { result := if success then "chain_completed" else "chain_with_errors",
    steps_done := total,
    meets_required_steps := decide (total ≥ required_min_steps),
    steps := steps }

/-! ### Concrete library stubs and scripted environments for witnesses -/

/-- A minimal library stub: json.loads and json.dumps always raise and
str renders nothing; witnesses that use it never reach those calls or do
not depend on their output. -/
def L0 : PyLib :=
  { jsonLoads := fun _ => Option.none,
    jsonDumps := fun _ => Option.none,
    str := fun _ => "" }

/-- A library stub whose json.loads knows exactly the double-encoded
continuation object of the C4 example. -/
def L4 : PyLib :=
  { jsonLoads := fun s =>
      if s = "\x7b\"url\": \"https://x/next\"\x7d" then
        some (.dict [("url", .str "https://x/next")])
      else Option.none,
    jsonDumps := fun _ => Option.none,
    str := fun _ => "" }

/-- Environment script: every step fetches an empty page, finds no file
link, the LLM answers "x", and the submission returns 200 with a body
carrying no next URL, so the chain stops successfully after one step. -/
def env0 : Nat → IterEnv := fun _ =>
  { fetch := .ok "", scan := .ok Option.none, download := .ok PyVal.none,
    llm := .ok (.str "x"), submit := .ok (200, PyVal.none) }

/-- Environment script: the very first page fetch raises. -/
def envErr : Nat → IterEnv := fun _ =>
  { fetch := .error "boom", scan := .ok Option.none, download := .ok PyVal.none,
    llm := .ok (.str "x"), submit := .ok (200, PyVal.none) }

/-- Environment script: every step succeeds with status 200 and a next
URL, so the chain only stops at the step cap. -/
def envCont : Nat → IterEnv := fun _ =>
  { fetch := .ok "zz", scan := .ok Option.none, download := .ok PyVal.none,
    llm := .ok (.str "x"), submit := .ok (200, .dict [("url", .str "http://n")]) }

/-- The record produced by each envCont iteration. -/
def contRec (sn : Int) (u : PyVal) : StepRecord :=
  { step := sn, url := u, method := some "aipipe", fileError := Option.none,
    rawAnswer := some (.str "x"), submitStatus := some 200,
    submittedAnswer := some (.str "x"),
    submitParsed := some (.dict [("url", .str "http://n")]),
    nextUrl := some (.str "http://n"), error := Option.none }

/-- Fallback record for index access in statements. -/
def dummyRec : StepRecord := StepRecord.base 0 PyVal.none

/-- A one-numeric-column dataframe for the spreadsheet witness. -/
def df1 : DFrame := { cols := [.num "a" [1, 2, 3]] }

/-! ### Definitions used to state the claims -/

/-- The normalizer outputs on which a second normalization is proved to be
the identity: booleans, numbers and mappings. -/
def isStableOutput : PyVal → Bool
  | .bool _ => true
  | .int _ => true
  | .float _ => true
  | .dict _ => true
  | _ => false

/-- A mapping as produced by the general-flattening branch: no "answer"
key and only primitive values. -/
def cleanKvs (kvs : List (String × PyVal)) : Prop :=
  pyLookup kvs "answer" = Option.none ∧ ∀ kv ∈ kvs, isPrimitive kv.2 = true

/-- A capture of the first extraction pattern: the literal "tds"
case-insensitively, an open brace, a nonempty brace-free middle and the
closing brace. -/
def tdsShaped (m : List Char) : Prop :=
  ∃ t d s mid, m = t :: d :: s :: '\x7b' :: (mid ++ ['\x7d']) ∧
    ciEq t 't' = true ∧ ciEq d 'd' = true ∧ ciEq s 's' = true ∧
    mid ≠ [] ∧ ∀ c ∈ mid, c ≠ '\x7d'

/-- Wordness of the character preceding the current search position:
that of the last character of the consumed text, or the initial flag when
nothing has been consumed. -/
def lastWordOf (pw : Bool) (pre : List Char) : Bool :=
  match pre.getLast? with
  | some c => wordCharB c
  | Option.none => pw

/-! ### General helper lemmas -/

theorem head_dropWhile_false {p : Char → Bool} {l : List Char} {c : Char}
    (h : (l.dropWhile p).head? = some c) : p c = false := by
  have h2 := List.head?_dropWhile_not p l
  rw [h] at h2
  exact h2

theorem dropWhile_idem (p : Char → Bool) (l : List Char) :
    (l.dropWhile p).dropWhile p = l.dropWhile p := by
  cases h : l.dropWhile p with
  | nil => rfl
  | cons c t =>
      have hc : p c = false := by
        apply head_dropWhile_false (l := l)
        rw [h]; rfl
      rw [List.dropWhile_cons_of_neg (by simp [hc])]

theorem takeWhile_append_all {p : Char → Bool} :
    ∀ (l1 l2 : List Char), (∀ c ∈ l1, p c = true) →
      (l1 ++ l2).takeWhile p = l1 ++ l2.takeWhile p ∧
      (l1 ++ l2).dropWhile p = l2.dropWhile p := by
  intro l1
  induction l1 with
  | nil => intro l2 _; simp
  | cons c t ih =>
      intro l2 hall
      have hc : p c = true := hall c (by simp)
      have ht := ih l2 (fun x hx => hall x (by simp [hx]))
      constructor
      · simp [List.takeWhile_cons_of_pos hc, ht.1]
      · simp [List.dropWhile_cons_of_pos hc, ht.2]

theorem pyStripList_idem (l : List Char) : pyStripList (pyStripList l) = pyStripList l := by
  have key : ((l.dropWhile isPyWs).reverse.dropWhile isPyWs).reverse.dropWhile isPyWs =
      ((l.dropWhile isPyWs).reverse.dropWhile isPyWs).reverse := by
    cases hXr : ((l.dropWhile isPyWs).reverse.dropWhile isPyWs).reverse with
    | nil => rfl
    | cons a t =>
        have hsplit : (l.dropWhile isPyWs).reverse.takeWhile isPyWs ++
            (l.dropWhile isPyWs).reverse.dropWhile isPyWs = (l.dropWhile isPyWs).reverse :=
          List.takeWhile_append_dropWhile ..
        have hD : ((l.dropWhile isPyWs).reverse.dropWhile isPyWs).reverse ++
            ((l.dropWhile isPyWs).reverse.takeWhile isPyWs).reverse = l.dropWhile isPyWs := by
          have h2 := congrArg List.reverse hsplit
          rw [List.reverse_append] at h2
          rw [List.reverse_reverse] at h2
          exact h2
        have hhead : (l.dropWhile isPyWs).head? = some a := by
          rw [← hD, hXr]
          simp
        have ha : isPyWs a = false := head_dropWhile_false (l := l) hhead
        rw [List.dropWhile_cons_of_neg (by simp [ha])]
  unfold pyStripList
  rw [key, List.reverse_reverse, dropWhile_idem]

theorem pyStrip_idem (s : String) : pyStrip (pyStrip s) = pyStrip s := by
  unfold pyStrip
  rw [show ((pyStripList s.toList).asString).toList = pyStripList s.toList from rfl,
    pyStripList_idem]

/-! ### C9: a zero-iteration run -/

/-- C9: if solve_quiz is invoked with max_steps ≤ 0 or an empty start URL,
the loop never runs: the result is "chain_completed" with steps_done = 0,
an empty step sequence, and meets_required_steps deciding
0 ≥ required_min_steps. -/
theorem solve_quiz_zero_steps (L : PyLib) (env : Nat → IterEnv) (url : String)
    (req max_ : Int) (h : max_ ≤ 0 ∨ url = "") :
    (solve_quiz L env url req max_).result = "chain_completed" ∧
    (solve_quiz L env url req max_).steps_done = 0 ∧
    (solve_quiz L env url req max_).steps = [] ∧
    (solve_quiz L env url req max_).meets_required_steps = decide ((0 : Int) ≥ req) := by
  have hloop : chainLoop L env max_ max_.toNat 0 (.str url) [] = [] := by
    rcases h with h | h
    · rw [Int.toNat_of_nonpos h]
      rfl
    · subst h
      cases max_.toNat with
      | zero => rfl
      | succ n =>
          rw [chainLoop, if_neg]
          rintro ⟨h1, _⟩
          exact absurd h1 (by decide)
  simp [solve_quiz, hloop]

/-- C9 witness at a concrete zero-step invocation. -/
theorem solve_quiz_zero_steps_witness :
    ((10 : Int) ≤ 0 ∨ "" = "") ∧
    (solve_quiz L0 env0 "" 3 10).result = "chain_completed" ∧
    (solve_quiz L0 env0 "" 3 10).steps_done = 0 ∧
    (solve_quiz L0 env0 "" 3 10).steps = [] ∧
    (solve_quiz L0 env0 "" 3 10).meets_required_steps = decide ((0 : Int) ≥ 3) :=
  ⟨Or.inr rfl, solve_quiz_zero_steps L0 env0 "" 3 10 (Or.inr rfl)⟩

/-! ### C4: nested-JSON continuation URL -/

/-- C4: when the parsed grading response is a mapping whose "url" value is
a string starting with an open brace that json.loads turns into an object
with a "url" key, the extracted next URL is the inner "url" value. -/
theorem extractNextUrl_nested (L : PyLib) (kvs nkvs : List (String × PyVal))
    (s : String) (inner : PyVal)
    (hurl : pyLookup kvs "url" = some (.str s))
    (hbrace : "\x7b".toList.isPrefixOf s.toList = true)
    (hparse : L.jsonLoads s = some (.dict nkvs))
    (hinner : pyLookup nkvs "url" = some inner) :
    extractNextUrl L (.dict kvs) = inner := by
  simp only [extractNextUrl, pyGet, hurl, Option.getD_some, hparse, hinner]
  rw [if_pos hbrace]

/-- C4 witness: the example response of the specification. -/
theorem extractNextUrl_nested_witness :
    pyLookup [("url", PyVal.str "\x7b\"url\": \"https://x/next\"\x7d")] "url" =
      some (.str "\x7b\"url\": \"https://x/next\"\x7d") ∧
    extractNextUrl L4 (.dict [("url", PyVal.str "\x7b\"url\": \"https://x/next\"\x7d")]) =
      .str "https://x/next" :=
  ⟨rfl, extractNextUrl_nested L4 _ _ _ _ rfl rfl rfl rfl⟩

/-! ### C5: spreadsheet heuristic -/

/-- C5: if the page text contains "sum" case-insensitively, the heuristic
returns the integer sum of the first numeric column when one exists and
falls through to the records branch when no column is numeric; without
"sum" it returns all rows as records. -/
theorem processParsedTable_spec (df : DFrame) (text : String) :
    (hasSubstr "sum".toList (lowerStr text).toList = true →
      (∀ n vs, firstNumericCol df.cols = some (n, vs) →
        processParsedTable df text = .int vs.sum) ∧
      (firstNumericCol df.cols = Option.none →
        processParsedTable df text = df.toRecords)) ∧
    (hasSubstr "sum".toList (lowerStr text).toList = false →
      processParsedTable df text = df.toRecords) := by
  constructor
  · intro hsum
    constructor
    · intro n vs hfirst
      unfold processParsedTable
      rw [if_pos hsum, hfirst]
    · intro hnone
      unfold processParsedTable
      rw [if_pos hsum, hnone]
  · intro hnosum
    unfold processParsedTable
    rw [if_neg (fun hc => by rw [hc] at hnosum; exact Bool.noConfusion hnosum)]

/-- C5 witness: a CSV column [1,2,3] with page text asking for a sum
yields 6. -/
theorem processParsedTable_spec_witness :
    hasSubstr "sum".toList (lowerStr "please sum the values").toList = true ∧
    processParsedTable df1 "please sum the values" = .int 6 :=
  ⟨by decide, by
    rw [((processParsedTable_spec df1 "please sum the values").1 (by decide)).1
      "a" [1, 2, 3] rfl]
    rfl⟩

/-! ### C3: LLM call failure modes -/

/-- C3 counterexample: on a 2xx response whose choices list is empty, the
call does not fail with an inference error; it returns the empty string. -/
theorem call_aipipe_empty_choices_counterexample :
    _call_aipipe (some "tok") (some "http://api")
      (.ok { status := 200, jsonBody := some (.dict [("choices", .list [])]) }) =
      .ok (.str "") ∧
    isFailure (_call_aipipe (some "tok") (some "http://api")
      (.ok { status := 200, jsonBody := some (.dict [("choices", .list [])]) })) = false :=
  ⟨rfl, rfl⟩

/-- C3 amended: the call fails whenever the service is unreachable (the
POST raises) or returns a non-2xx status, but a 2xx JSON response whose
"choices" entry is an empty list yields the empty string rather than a
failure. -/
theorem call_aipipe_failure_modes :
    (∀ (token apUrl : Option String) (m : String),
      isFailure (_call_aipipe token apUrl (.error m)) = true) ∧
    (∀ (token apUrl : Option String) (resp : AipipeResp),
      resp.status < 200 ∨ 300 ≤ resp.status →
      isFailure (_call_aipipe token apUrl (.ok resp)) = true) ∧
    (∀ (token apUrl : Option String) (st : Int) (kvs : List (String × PyVal)),
      falsyOptStr token = false → falsyOptStr apUrl = false →
      200 ≤ st → st < 300 →
      pyGet kvs "choices" (.list []) = .list [] →
      _call_aipipe token apUrl (.ok { status := st, jsonBody := some (.dict kvs) }) =
        .ok (.str "")) := by
  refine ⟨?_, ?_, ?_⟩
  · intro token apUrl m
    unfold _call_aipipe
    split
    · rfl
    · rfl
  · intro token apUrl resp hst
    unfold _call_aipipe
    split
    · rfl
    · dsimp only
      rw [if_pos hst]
      rfl
  · intro token apUrl st kvs htok hurl h1 h2 hch
    unfold _call_aipipe
    rw [if_neg (by simp [htok, hurl])]
    dsimp only
    rw [if_neg (by omega : ¬((st : Int) < 200 ∨ 300 ≤ st))]
    simp only [hch]
    rfl

/-! ### C7: numeric string normalization -/

theorem asString_toList (s : String) : s.toList.asString = s := rfl

theorem intLitChars_mem {l : List Char} (h : intLitChars l = true) :
    ∀ c ∈ l, isDigitChar c = true ∨ c = '-' := by
  intro c hc
  unfold intLitChars at h
  split at h
  · next ds =>
      simp only [Bool.and_eq_true, List.all_eq_true] at h
      rcases List.mem_cons.mp hc with hc | hc
      · exact Or.inr hc
      · exact Or.inl (h.2 c hc)
  · next =>
      simp only [Bool.and_eq_true, List.all_eq_true] at h
      exact Or.inl (h.2 c hc)

theorem take_length_takeWhile (p : Char → Bool) (l : List Char) :
    l.take (l.takeWhile p).length = l.takeWhile p := by
  induction l with
  | nil => rfl
  | cons c t ih =>
      by_cases hc : p c = true
      · rw [List.takeWhile_cons_of_pos hc]
        simp [List.take_succ_cons, ih]
      · rw [List.takeWhile_cons_of_neg (by simp [hc])]
        rfl

theorem floatLitChars_mem {l : List Char} (h : floatLitChars l = true) :
    ∀ c ∈ l, isDigitChar c = true ∨ c = '-' ∨ c = '.' := by
  have core : ∀ (ds : List Char), floatLitCore ds = true →
      ∀ c ∈ ds, isDigitChar c = true ∨ c = '.' := by
    intro ds hds c hc
    unfold floatLitCore at hds
    split at hds
    · next fp heq =>
        simp only [Bool.and_eq_true, List.all_eq_true] at hds
        rw [← List.take_append_drop (ds.takeWhile isDigitChar).length ds] at hc
        rcases List.mem_append.mp hc with hc | hc
        · rw [take_length_takeWhile] at hc
          exact Or.inl (List.mem_takeWhile_imp hc)
        · rw [heq] at hc
          rcases List.mem_cons.mp hc with hc | hc
          · exact Or.inr hc
          · refine Or.inl ?_
            have hall : ∀ x ∈ fp, isDigitChar x = true := by tauto
            exact hall c hc
    · exact Bool.noConfusion hds
  unfold floatLitChars at h
  split at h
  · next ds =>
      intro c hc
      rcases List.mem_cons.mp hc with hc | hc
      · exact Or.inr (Or.inl hc)
      · rcases core ds h c hc with h2 | h2
        · exact Or.inl h2
        · exact Or.inr (Or.inr h2)
  · next =>
      intro c hc
      rcases core l h c hc with h2 | h2
      · exact Or.inl h2
      · exact Or.inr (Or.inr h2)

theorem dot_mem_of_floatLit {l : List Char} (h : floatLitChars l = true) : '.' ∈ l := by
  have core : ∀ (ds : List Char), floatLitCore ds = true → '.' ∈ ds := by
    intro ds hds
    unfold floatLitCore at hds
    split at hds
    · next fp heq =>
        have hmem : '.' ∈ ds.drop ((ds.takeWhile isDigitChar).length) := by
          rw [heq]; exact List.mem_cons_self ..
        exact List.mem_of_mem_drop hmem
    · exact Bool.noConfusion hds
  unfold floatLitChars at h
  split at h
  · next ds => exact List.mem_cons_of_mem _ (core ds h)
  · next => exact core l h

theorem intLit_false_of_floatLit {l : List Char} (hf : floatLitChars l = true) :
    intLitChars l = false := by
  have hdot : '.' ∈ l := dot_mem_of_floatLit hf
  cases hil : intLitChars l with
  | false => rfl
  | true =>
      rcases intLitChars_mem hil '.' hdot with h | h
      · exact absurd h (by decide)
      · exact absurd h (by decide)

theorem toLower_fixed_of_nonupper {c : Char}
    (h : isDigitChar c = true ∨ c = '-' ∨ c = '.') : c.toLower = c := by
  rcases h with h | h | h
  · simp only [isDigitChar, Bool.and_eq_true, decide_eq_true_eq] at h
    have h3 : c.toNat ≤ 57 := by
      have h2 := h.2
      simp only [Char.le_def] at h2
      exact h2
    unfold Char.toLower
    simp only [ge_iff_le]
    rw [if_neg]
    omega
  · subst h; rfl
  · subst h; rfl

theorem lowerStr_fixed_of (s : String) (h : ∀ c ∈ s.toList, Char.toLower c = c) :
    lowerStr s = s := by
  unfold lowerStr
  rw [List.map_congr_left h, List.map_id', asString_toList]

theorem ne_of_decide_mismatch (f : List Char → Bool) {a b : String}
    (ha : f a.toList = true) (hb : f b.toList = false) : a ≠ b := fun he => by
  rw [he] at ha
  rw [ha] at hb
  exact Bool.noConfusion hb

theorem attempt_boolean_none_of_chars (s1 : String)
    (hfix : lowerStr (pyStrip s1) = pyStrip s1)
    (h1 : pyStrip s1 ≠ "true") (h2 : pyStrip s1 ≠ "yes") (h3 : pyStrip s1 ≠ "y")
    (h4 : pyStrip s1 ≠ "false") (h5 : pyStrip s1 ≠ "no") (h6 : pyStrip s1 ≠ "n") :
    _attempt_boolean s1 = Option.none := by
  simp only [_attempt_boolean, hfix]
  rw [if_neg (by simp [h1, h2, h3]), if_neg (by simp [h4, h5, h6])]

/-- C7: for a string whose stripped form fully matches -?\d+ the
normalizer returns the corresponding integer, and for one fully matching
-?\d+\.\d+ the corresponding decimal; the boolean-word test never
intercepts such strings. -/
theorem normalize_numeric_strings (L : PyLib) (s : String) :
    (intLitChars (pyStrip s).toList = true →
      _attempt_boolean (pyStrip s) = Option.none ∧
      _normalize_answer_for_submission L (.str s) = .int (intLitVal (pyStrip s).toList)) ∧
    (floatLitChars (pyStrip s).toList = true →
      _attempt_boolean (pyStrip s) = Option.none ∧
      _normalize_answer_for_submission L (.str s) = .float (floatLitVal (pyStrip s).toList)) := by
  constructor
  · intro hint
    have hfix0 : lowerStr (pyStrip s) = pyStrip s :=
      lowerStr_fixed_of _ (fun c hc => toLower_fixed_of_nonupper (by
        rcases intLitChars_mem hint c hc with h | h
        · exact Or.inl h
        · exact Or.inr (Or.inl h)))
    have hbool : _attempt_boolean (pyStrip s) = Option.none := by
      apply attempt_boolean_none_of_chars <;> rw [pyStrip_idem]
      · exact hfix0
      · exact ne_of_decide_mismatch intLitChars hint (by decide)
      · exact ne_of_decide_mismatch intLitChars hint (by decide)
      · exact ne_of_decide_mismatch intLitChars hint (by decide)
      · exact ne_of_decide_mismatch intLitChars hint (by decide)
      · exact ne_of_decide_mismatch intLitChars hint (by decide)
      · exact ne_of_decide_mismatch intLitChars hint (by decide)
    have hnum : _attempt_number (pyStrip s) = some (.int (intLitVal (pyStrip s).toList)) := by
      simp only [_attempt_number, pyStrip_idem]
      rw [if_pos hint]
    refine ⟨hbool, ?_⟩
    simp only [_normalize_answer_for_submission, hbool, hnum]
  · intro hfl
    have hfix0 : lowerStr (pyStrip s) = pyStrip s :=
      lowerStr_fixed_of _ (fun c hc => toLower_fixed_of_nonupper (by
        rcases floatLitChars_mem hfl c hc with h | h
        · exact Or.inl h
        · exact Or.inr h))
    have hbool : _attempt_boolean (pyStrip s) = Option.none := by
      apply attempt_boolean_none_of_chars <;> rw [pyStrip_idem]
      · exact hfix0
      · exact ne_of_decide_mismatch floatLitChars hfl (by decide)
      · exact ne_of_decide_mismatch floatLitChars hfl (by decide)
      · exact ne_of_decide_mismatch floatLitChars hfl (by decide)
      · exact ne_of_decide_mismatch floatLitChars hfl (by decide)
      · exact ne_of_decide_mismatch floatLitChars hfl (by decide)
      · exact ne_of_decide_mismatch floatLitChars hfl (by decide)
    have hnum : _attempt_number (pyStrip s) =
        some (.float (floatLitVal (pyStrip s).toList)) := by
      simp only [_attempt_number, pyStrip_idem]
      rw [if_neg (by rw [intLit_false_of_floatLit hfl]; exact fun hc => Bool.noConfusion hc),
        if_pos hfl]
    refine ⟨hbool, ?_⟩
    simp only [_normalize_answer_for_submission, hbool, hnum]

/-- C7 witness: " -42 " normalizes to the integer -42 and "3.14" to the
decimal 157/50. -/
theorem normalize_numeric_strings_witness :
    intLitChars (pyStrip " -42 ").toList = true ∧
    _normalize_answer_for_submission L0 (.str " -42 ") = .int (intLitVal (pyStrip " -42 ").toList) ∧
    floatLitChars (pyStrip "3.14").toList = true ∧
    _normalize_answer_for_submission L0 (.str "3.14") = .float (floatLitVal (pyStrip "3.14").toList) ∧
    intLitVal (pyStrip " -42 ").toList = -42 :=
  ⟨by decide, ((normalize_numeric_strings L0 " -42 ").1 (by decide)).2,
    by decide, ((normalize_numeric_strings L0 "3.14").2 (by decide)).2, by decide⟩

/-! ### Orchestrator loop facts (C1, C10) -/

theorem runIter_elim (L : PyLib) (e : IterEnv) (sn : Int) (u : PyVal)
    (P : IterOut → Prop)
    (hhalt : ∀ r, r.step = sn → P (.halt r))
    (hnext : ∀ r nu, r.step = sn → r.error = Option.none → pyTruthy nu = true →
      P (.next r nu)) :
    P (runIter L e sn u) := by
  simp only [runIter]
  repeat' split
  all_goals first
    | (apply hhalt; rfl)
    | (apply hnext <;> first | rfl | assumption)

theorem runIter_halt_step {L : PyLib} {e : IterEnv} {sn : Int} {u : PyVal} {r : StepRecord}
    (h : runIter L e sn u = .halt r) : r.step = sn := by
  have := runIter_elim L e sn u
    (fun out => ∀ r2, out = .halt r2 → r2.step = sn)
    (fun r2 hstep r3 heq => by cases heq; exact hstep)
    (fun r2 nu _ _ _ r3 heq => by cases heq)
  exact this r h

theorem runIter_next_facts {L : PyLib} {e : IterEnv} {sn : Int} {u : PyVal}
    {r : StepRecord} {nu : PyVal} (h : runIter L e sn u = .next r nu) :
    r.step = sn ∧ r.error = Option.none ∧ pyTruthy nu = true := by
  have := runIter_elim L e sn u
    (fun out => ∀ r2 nu2, out = .next r2 nu2 →
      r2.step = sn ∧ r2.error = Option.none ∧ pyTruthy nu2 = true)
    (fun r2 hstep r3 nu3 heq => by cases heq)
    (fun r2 nu2 hstep herr htr r3 nu3 heq => by cases heq; exact ⟨hstep, herr, htr⟩)
  exact this r nu h

theorem chainLoop_invariant (L : PyLib) (env : Nat → IterEnv) (maxSteps : Int) :
    ∀ (fuel : Nat) (stepNo : Int) (u : PyVal) (acc : List StepRecord),
      stepNo = (acc.length : Int) →
      (∀ i r, acc.get? i = some r → r.step = i + 1) →
      (∀ i r, acc.get? i = some r → r.error = Option.none) →
      (chainLoop L env maxSteps fuel stepNo u acc).length ≤ acc.length + fuel ∧
      (∀ i r, (chainLoop L env maxSteps fuel stepNo u acc).get? i = some r →
        r.step = i + 1) ∧
      (∀ i r, (chainLoop L env maxSteps fuel stepNo u acc).get? i = some r →
        i + 1 < (chainLoop L env maxSteps fuel stepNo u acc).length →
        r.error = Option.none) := by
  intro fuel
  induction fuel with
  | zero =>
      intro stepNo u acc hsn hidx herr
      rw [show chainLoop L env maxSteps 0 stepNo u acc = acc from rfl]
      exact ⟨Nat.le_add_right .., hidx, fun i r h _ => herr i r h⟩
  | succ fuel ih =>
      intro stepNo u acc hsn hidx herr
      rw [chainLoop]
      split
      · next hguard =>
          split
          · next r heq =>
              have hstep := runIter_halt_step heq
              refine ⟨?_, ?_, ?_⟩
              · rw [List.length_append]
                simp
              · intro i r2 hget
                rcases Nat.lt_or_ge i acc.length with hi | hi
                · rw [List.get?_append hi] at hget
                  exact hidx i r2 hget
                · have hlen : i < (acc ++ [r]).length := List.get?_eq_some.mp hget |>.1
                  rw [List.length_append, List.length_singleton] at hlen
                  have hieq : i = acc.length := by omega
                  subst hieq
                  rw [List.get?_concat_length] at hget
                  cases hget
                  rw [hstep, hsn]
              · intro i r2 hget hlt
                rw [List.length_append, List.length_singleton] at hlt
                have hi : i < acc.length := by omega
                rw [List.get?_append hi] at hget
                exact herr i r2 hget
          · next r nu heq =>
              obtain ⟨hstep, herrr, htr⟩ := runIter_next_facts heq
              have hidx2 : ∀ i r2, (acc ++ [r]).get? i = some r2 → r2.step = i + 1 := by
                intro i r2 hget
                rcases Nat.lt_or_ge i acc.length with hi | hi
                · rw [List.get?_append hi] at hget
                  exact hidx i r2 hget
                · have hlen : i < (acc ++ [r]).length := List.get?_eq_some.mp hget |>.1
                  rw [List.length_append, List.length_singleton] at hlen
                  have hieq : i = acc.length := by omega
                  subst hieq
                  rw [List.get?_concat_length] at hget
                  cases hget
                  rw [hstep, hsn]
              have herr2 : ∀ i r2, (acc ++ [r]).get? i = some r2 →
                  r2.error = Option.none := by
                intro i r2 hget
                rcases Nat.lt_or_ge i acc.length with hi | hi
                · rw [List.get?_append hi] at hget
                  exact herr i r2 hget
                · have hlen : i < (acc ++ [r]).length := List.get?_eq_some.mp hget |>.1
                  rw [List.length_append, List.length_singleton] at hlen
                  have hieq : i = acc.length := by omega
                  subst hieq
                  rw [List.get?_concat_length] at hget
                  cases hget
                  exact herrr
              have hrec := ih (stepNo + 1) nu (acc ++ [r])
                (by rw [List.length_append, List.length_singleton, hsn]; push_cast; ring)
                hidx2 herr2
              refine ⟨?_, hrec.2.1, hrec.2.2⟩
              have h1 := hrec.1
              rw [List.length_append, List.length_singleton] at h1
              omega
      · next hguard =>
          exact ⟨Nat.le_add_right .., hidx, fun i r h _ => herr i r h⟩

theorem chainLoop_all_cont (L : PyLib) (env : Nat → IterEnv) (maxSteps : Int) :
    ∀ (fuel : Nat) (stepNo : Int) (u : PyVal) (acc : List StepRecord),
      0 ≤ stepNo → stepNo + fuel = maxSteps → pyTruthy u = true →
      (∀ (k : Int) (v : PyVal), stepNo < k → k ≤ maxSteps → pyTruthy v = true →
        ∃ r nu, runIter L (env k.toNat) k v = .next r nu ∧
          ∃ st, r.submitStatus = some st ∧ st < 400) →
      (chainLoop L env maxSteps fuel stepNo u acc).length = acc.length + fuel ∧
      ∀ r ∈ chainLoop L env maxSteps fuel stepNo u acc,
        r ∈ acc ∨ ∃ st, r.submitStatus = some st ∧ st < 400 := by
  intro fuel
  induction fuel with
  | zero =>
      intro stepNo u acc _ _ _ _
      exact ⟨rfl, fun r hr => Or.inl hr⟩
  | succ fuel ih =>
      intro stepNo u acc h0 hsum htr H
      obtain ⟨r, nu, hri, st, hst, hlt⟩ := H (stepNo + 1) u (by omega)
        (by push_cast at hsum; omega) htr
      have hfacts := runIter_next_facts hri
      rw [chainLoop, if_pos ⟨htr, by push_cast at hsum; omega⟩, hri]
      have hrec := ih (stepNo + 1) nu (acc ++ [r]) (by omega)
        (by push_cast at hsum ⊢; omega) hfacts.2.2
        (fun k v hk1 hk2 hv => H k v (by omega) hk2 hv)
      constructor
      · rw [hrec.1, List.length_append, List.length_singleton]
        omega
      · intro r2 hr2
        rcases hrec.2 r2 hr2 with hmem | hst2
        · rcases List.mem_append.mp hmem with h | h
          · exact Or.inl h
          · rw [List.mem_singleton.mp h]
            exact Or.inr ⟨st, hst, hlt⟩
        · exact Or.inr hst2

/-! ### Regex search lemmas (C6, C8) -/

theorem wordCharB_cls2 {c : Char} (h : wordCharB c = true) : cls2 c = true := by
  simp [cls2, h]

theorem cls2_false_wordCharB {c : Char} (h : cls2 c = false) : wordCharB c = false := by
  cases hw : wordCharB c with
  | false => rfl
  | true => rw [wordCharB_cls2 hw] at h; exact Bool.noConfusion h

theorem bool_transition (f : Nat → Bool) :
    ∀ (d a : Nat), f a = true → f (a + d) = false →
      ∃ j, a < j ∧ j ≤ a + d ∧ f (j - 1) = true ∧ f j = false := by
  intro d
  induction d with
  | zero =>
      intro a ha hfa
      rw [Nat.add_zero, ha] at hfa
      exact Bool.noConfusion hfa
  | succ d ihd =>
      intro a ha hfa
      by_cases hd : f (a + d) = true
      · refine ⟨a + d + 1, by omega, by omega, ?_, hfa⟩
        simpa using hd
      · have hd2 : f (a + d) = false := by
          cases hfd : f (a + d) with
          | false => rfl
          | true => exact absurd hfd hd
        obtain ⟨j, h1, h2, h3, h4⟩ := ihd a ha hd2
        exact ⟨j, h1, by omega, h3, h4⟩

theorem findEndLen_isSome (run : List Char) (next : Option Char) :
    ∀ (k j : Nat), j ≤ k → 6 ≤ j → endBoundary run next j = true →
      findEndLen run next k ≠ Option.none := by
  intro k
  induction k with
  | zero => intro j h1 h2 _; omega
  | succ k ihk =>
      intro j h1 h2 hb
      rw [findEndLen]
      split
      · exact fun h => Option.noConfusion h
      · next hcond =>
          rcases Nat.lt_or_ge j (k + 1) with hj | hj
          · exact ihk j (by omega) h2 hb
          · have hjeq : j = k + 1 := by omega
            subst hjeq
            exact absurd (by simp [hb]; omega) hcond

theorem matchAlnum6_of_word6 (W rest : List Char)
    (hW6 : W.length = 6) (hWw : ∀ c ∈ W, wordCharB c = true) :
    matchAlnum6 false (W ++ rest) ≠ Option.none := by
  obtain ⟨c, W', rfl⟩ : ∃ c W', W = c :: W' := by
    cases W with
    | nil => simp at hW6
    | cons c W' => exact ⟨c, W', rfl⟩
  have hcw : wordCharB c = true := hWw c (by simp)
  have hWcls : ∀ x ∈ c :: W', cls2 x = true := fun x hx => wordCharB_cls2 (hWw x hx)
  have hrun : ((c :: W') ++ rest).takeWhile cls2 = (c :: W') ++ rest.takeWhile cls2 :=
    (takeWhile_append_all (c :: W') rest hWcls).1
  have hdrop : ((c :: W') ++ rest).dropWhile cls2 = rest.dropWhile cls2 :=
    (takeWhile_append_all (c :: W') rest hWcls).2
  rw [matchAlnum6]
  rw [show ((c :: W') ++ rest).head? = some c from rfl]
  dsimp only
  rw [if_pos (by simp [wordCharB_cls2 hcw, hcw])]
  rw [hrun, hdrop]
  have hL : 6 ≤ ((c :: W') ++ rest.takeWhile cls2).length := by
    rw [List.length_append, hW6]
    omega
  have hf5 : wordAt ((c :: W') ++ rest.takeWhile cls2) ((rest.dropWhile cls2).head?) 5 =
      true := by
    have h5 : 5 < (c :: W').length := by omega
    obtain ⟨w, hw⟩ : ∃ w, (c :: W').get? 5 = some w := by
      rw [List.get?_eq_get h5]
      exact ⟨_, rfl⟩
    have hwmem : w ∈ c :: W' := by
      have := List.get?_mem hw
      exact this
    rw [wordAt.eq_def, List.get?_append h5, hw]
    exact hWw w hwmem
  have hfL : wordAt ((c :: W') ++ rest.takeWhile cls2) ((rest.dropWhile cls2).head?)
      ((c :: W') ++ rest.takeWhile cls2).length = false := by
    rw [wordAt.eq_def, List.get?_eq_none.mpr (Nat.le_refl ..)]
    cases hnn : (rest.dropWhile cls2).head? with
    | none => rfl
    | some c2 => exact cls2_false_wordCharB (head_dropWhile_false hnn)
  obtain ⟨j, hj1, hj2, hj3, hj4⟩ :=
    bool_transition (wordAt ((c :: W') ++ rest.takeWhile cls2)
      ((rest.dropWhile cls2).head?)) (((c :: W') ++ rest.takeWhile cls2).length - 5) 5 hf5
      (by rw [show 5 + (((c :: W') ++ rest.takeWhile cls2).length - 5) =
          ((c :: W') ++ rest.takeWhile cls2).length by omega]
          exact hfL)
  have hend : endBoundary ((c :: W') ++ rest.takeWhile cls2)
      ((rest.dropWhile cls2).head?) j = true := by
    rw [endBoundary, hj3, hj4]
    rfl
  have hfind := findEndLen_isSome ((c :: W') ++ rest.takeWhile cls2)
    ((rest.dropWhile cls2).head?) ((c :: W') ++ rest.takeWhile cls2).length j
    (by omega) (by omega) hend
  cases hfe : findEndLen ((c :: W') ++ rest.takeWhile cls2)
      ((rest.dropWhile cls2).head?) ((c :: W') ++ rest.takeWhile cls2).length with
  | none => exact absurd hfe hfind
  | some j2 => simp [hfe]

theorem lastWordOf_cons (pw : Bool) (c : Char) (pre : List Char) :
    lastWordOf pw (c :: pre) = lastWordOf (wordCharB c) pre := by
  cases pre with
  | nil => rfl
  | cons d t =>
      rw [lastWordOf, lastWordOf, List.getLast?_cons_cons]
      cases hg : (d :: t).getLast? with
      | none => simp at hg
      | some x => rfl

theorem searchAlnum6Aux_complete :
    ∀ (pre : List Char) (pw : Bool) (suf : List Char),
      matchAlnum6 (lastWordOf pw pre) suf ≠ Option.none →
      searchAlnum6Aux pw (pre ++ suf) ≠ Option.none := by
  intro pre
  induction pre with
  | nil =>
      intro pw suf hm
      cases suf with
      | nil => exact absurd rfl hm
      | cons c rest =>
          rw [List.nil_append, searchAlnum6Aux]
          cases hm2 : matchAlnum6 pw (c :: rest) with
          | some m => simp [hm2]
          | none => exact absurd hm2 hm
  | cons c pre ihp =>
      intro pw suf hm
      rw [List.cons_append, searchAlnum6Aux]
      cases hm2 : matchAlnum6 pw (c :: (pre ++ suf)) with
      | some m => simp [hm2]
      | none =>
          simp only [hm2]
          apply ihp (wordCharB c) suf
          rw [← lastWordOf_cons pw c pre]
          exact hm

theorem searchAlnum6_of_wordRun :
    ∀ (pre W rest : List Char), W.length = 6 → (∀ c ∈ W, wordCharB c = true) →
      searchAlnum6Aux false (pre ++ (W ++ rest)) ≠ Option.none := by
  intro pre
  induction pre using List.reverseRecOn with
  | nil =>
      intro W rest hW6 hWw
      apply searchAlnum6Aux_complete [] false (W ++ rest)
      exact matchAlnum6_of_word6 W rest hW6 hWw
  | append_singleton l c ihl =>
      intro W rest hW6 hWw
      by_cases hw : wordCharB c = true
      · have hW'6 : (c :: W.take 5).length = 6 := by
          simp [List.length_take, hW6]
        have hW'w : ∀ x ∈ c :: W.take 5, wordCharB x = true := by
          intro x hx
          rcases List.mem_cons.mp hx with rfl | hx
          · exact hw
          · exact hWw x (List.take_subset 5 W hx)
        have heq : (l ++ [c]) ++ (W ++ rest) =
            l ++ ((c :: W.take 5) ++ (W.drop 5 ++ rest)) := by
          simp only [List.append_assoc, List.singleton_append, List.cons_append,
            List.nil_append]
          rw [← List.append_assoc (W.take 5), List.take_append_drop]
        rw [heq]
        exact ihl (c :: W.take 5) (W.drop 5 ++ rest) hW'6 hW'w
      · have hlast : lastWordOf false (l ++ [c]) = false := by
          rw [lastWordOf, List.getLast?_concat]
          simpa using hw
        exact searchAlnum6Aux_complete (l ++ [c]) false (W ++ rest)
          (by rw [hlast]; exact matchAlnum6_of_word6 W rest hW6 hWw)

theorem searchSecretWord_decomp :
    ∀ (cs : List Char), searchSecretWord cs ≠ Option.none →
      ∃ pre suf, cs = pre ++ suf ∧ matchSecretAt suf ≠ Option.none := by
  intro cs
  induction cs with
  | nil => intro h; exact absurd rfl h
  | cons c rest ihc =>
      intro h
      cases hm : matchSecretAt (c :: rest) with
      | some m =>
          exact ⟨[], c :: rest, rfl, by rw [hm]; exact fun hh => Option.noConfusion hh⟩
      | none =>
          rw [searchSecretWord] at h
          simp only [hm] at h
          obtain ⟨pre, suf, heq, hm2⟩ := ihc h
          exact ⟨c :: pre, suf, by rw [heq]; rfl, hm2⟩

theorem ciEq_wordChar {c b : Char} (h : ciEq c b = true)
    (hb : wordCharB b = true) (hbu : wordCharB b.toUpper = true) : wordCharB c = true := by
  rcases (by simpa [ciEq] using h : c = b ∨ c = b.toUpper) with rfl | rfl
  · exact hb
  · exact hbu

theorem matchSecretAt_shape {suf : List Char} (h : matchSecretAt suf ≠ Option.none) :
    ∃ c1 c2 c3 c4 c5 c6 rest, suf = c1 :: c2 :: c3 :: c4 :: c5 :: c6 :: rest ∧
      wordCharB c1 = true ∧ wordCharB c2 = true ∧ wordCharB c3 = true ∧
      wordCharB c4 = true ∧ wordCharB c5 = true ∧ wordCharB c6 = true := by
  rcases suf with _ | ⟨c1, _ | ⟨c2, _ | ⟨c3, _ | ⟨c4, _ | ⟨c5, _ | ⟨c6, rest⟩⟩⟩⟩⟩⟩
  · exact absurd rfl h
  · exact absurd rfl h
  · exact absurd rfl h
  · exact absurd rfl h
  · exact absurd rfl h
  · exact absurd rfl h
  · rw [matchSecretAt] at h
    split at h
    · next hcond =>
        simp only [Bool.and_eq_true] at hcond
        obtain ⟨⟨⟨⟨⟨h1, h2⟩, h3⟩, h4⟩, h5⟩, h6⟩ := hcond
        exact ⟨c1, c2, c3, c4, c5, c6, rest, rfl,
          ciEq_wordChar h1 (by decide) (by decide),
          ciEq_wordChar h2 (by decide) (by decide),
          ciEq_wordChar h3 (by decide) (by decide),
          ciEq_wordChar h4 (by decide) (by decide),
          ciEq_wordChar h5 (by decide) (by decide),
          ciEq_wordChar h6 (by decide) (by decide)⟩
    · exact absurd rfl h

/-! ### C8: the third pattern is unreachable -/

/-- Over the ASCII reading of \w and \b: whenever the third extraction
pattern matches, the word "secret" itself supplies a standalone
6-character word run, so the second pattern already matches; and when
the first two pattern searches fail, the third fails too. -/
theorem ascii_model_third_implies_second (text : String) :
    (searchSecretWord text.toList ≠ Option.none →
      searchAlnum6 text.toList ≠ Option.none) ∧
    (searchTds text.toList = Option.none → searchAlnum6 text.toList = Option.none →
      searchSecretWord text.toList = Option.none) := by
  have main : searchSecretWord text.toList ≠ Option.none →
      searchAlnum6 text.toList ≠ Option.none := by
    intro h
    obtain ⟨pre, suf, heq, hm⟩ := searchSecretWord_decomp text.toList h
    obtain ⟨c1, c2, c3, c4, c5, c6, rest, hsuf, h1, h2, h3, h4, h5, h6⟩ :=
      matchSecretAt_shape hm
    rw [searchAlnum6, heq, hsuf]
    rw [show (c1 :: c2 :: c3 :: c4 :: c5 :: c6 :: rest) =
      [c1, c2, c3, c4, c5, c6] ++ rest from rfl]
    apply searchAlnum6_of_wordRun pre [c1, c2, c3, c4, c5, c6] rest rfl
    intro x hx
    simp only [List.mem_cons, List.not_mem_nil, or_false] at hx
    rcases hx with rfl | rfl | rfl | rfl | rfl | rfl
    · exact h1
    · exact h2
    · exact h3
    · exact h4
    · exact h5
    · exact h6
  refine ⟨main, ?_⟩
  intro _ halnum
  cases hs : searchSecretWord text.toList with
  | none => rfl
  | some m =>
      exact absurd halnum (main (by rw [hs]; exact fun hh => Option.noConfusion hh))

theorem mem_of_mem_takeWhile {p : Char → Bool} {l : List Char} {c : Char}
    (h : c ∈ l.takeWhile p) : c ∈ l := by
  have hsplit := List.takeWhile_append_dropWhile (p := p) (l := l)
  rw [← hsplit]
  exact List.mem_append_left _ h

theorem mem_of_head_dropWhile {p : Char → Bool} {l : List Char} {c : Char}
    (h : (l.dropWhile p).head? = some c) : c ∈ l := by
  have hsplit := List.takeWhile_append_dropWhile (p := p) (l := l)
  cases hd : l.dropWhile p with
  | nil => rw [hd] at h; exact Option.noConfusion h
  | cons a t =>
      rw [hd] at h
      have ha : a = c := Option.some.inj h
      rw [← hsplit, hd, ha]
      exact List.mem_append_right _ (by simp)

theorem wordCharW_ascii (uw : Char → Bool) {c : Char} (h : c.toNat < 128) :
    wordCharW uw c = wordCharB c := by
  rw [wordCharW, if_pos h]

theorem wordAtW_ascii (uw : Char → Bool) {run : List Char} {next : Option Char}
    (hrun : ∀ c ∈ run, c.toNat < 128) (hnext : ∀ c, next = some c → c.toNat < 128)
    (i : Nat) : wordAtW uw run next i = wordAt run next i := by
  rw [wordAtW.eq_def, wordAt.eq_def]
  cases hg : run.get? i with
  | some c =>
      show wordCharW uw c = wordCharB c
      exact wordCharW_ascii uw (hrun c (List.get?_mem hg))
  | none =>
      cases hn : next with
      | some c =>
          show wordCharW uw c = wordCharB c
          exact wordCharW_ascii uw (hnext c hn)
      | none => rfl

theorem endBoundaryW_ascii (uw : Char → Bool) {run : List Char} {next : Option Char}
    (hrun : ∀ c ∈ run, c.toNat < 128) (hnext : ∀ c, next = some c → c.toNat < 128)
    (j : Nat) : endBoundaryW uw run next j = endBoundary run next j := by
  rw [endBoundaryW, endBoundary, wordAtW_ascii uw hrun hnext,
    wordAtW_ascii uw hrun hnext]

theorem findEndLenW_ascii (uw : Char → Bool) {run : List Char} {next : Option Char}
    (hrun : ∀ c ∈ run, c.toNat < 128) (hnext : ∀ c, next = some c → c.toNat < 128) :
    ∀ k, findEndLenW uw run next k = findEndLen run next k := by
  intro k
  induction k with
  | zero => rfl
  | succ k ih =>
      rw [findEndLenW, findEndLen, endBoundaryW_ascii uw hrun hnext, ih]

theorem matchAlnum6W_ascii (uw : Char → Bool) (cs : List Char)
    (h : ∀ c ∈ cs, c.toNat < 128) (pw : Bool) :
    matchAlnum6W uw pw cs = matchAlnum6 pw cs := by
  cases cs with
  | nil => rfl
  | cons c rest =>
      have hc : c.toNat < 128 := h c (by simp)
      simp only [matchAlnum6W, matchAlnum6, List.head?_cons]
      rw [wordCharW_ascii uw hc]
      by_cases hcond : (cls2 c && (wordCharB c != pw)) = true
      · rw [if_pos hcond, if_pos hcond]
        rw [findEndLenW_ascii uw
          (fun x hx => h x (mem_of_mem_takeWhile hx))
          (fun x hx => h x (mem_of_head_dropWhile hx))]
      · rw [if_neg hcond, if_neg hcond]

theorem searchAlnum6AuxW_ascii (uw : Char → Bool) :
    ∀ (cs : List Char), (∀ c ∈ cs, c.toNat < 128) → ∀ (pw : Bool),
      searchAlnum6AuxW uw pw cs = searchAlnum6Aux pw cs := by
  intro cs
  induction cs with
  | nil => intro _ pw; rfl
  | cons c rest ih =>
      intro h pw
      have hc : c.toNat < 128 := h c (by simp)
      have hrest : ∀ x ∈ rest, x.toNat < 128 := fun x hx => h x (by simp [hx])
      rw [searchAlnum6AuxW, searchAlnum6Aux, matchAlnum6W_ascii uw (c :: rest) h pw]
      cases hm : matchAlnum6 pw (c :: rest) with
      | some m => rfl
      | none =>
          simp only [hm]
          rw [wordCharW_ascii uw hc]
          exact ih hrest (wordCharB c)

theorem searchAlnum6W_ascii (uw : Char → Bool) (cs : List Char)
    (h : ∀ c ∈ cs, c.toNat < 128) : searchAlnum6W uw cs = searchAlnum6 cs :=
  searchAlnum6AuxW_ascii uw cs h false

/-- C8 counterexample: pattern 2's \b is Unicode-aware in the source, so
on the text "ésecret: abcd" the leading é — a Unicode word character
that lies outside the ASCII capture class — suppresses every
second-pattern match (no word boundary before "secret", and no other
6-character class run exists), while the third pattern still fires: the
extractor returns "abcd" via its third pattern, so that branch is
reachable. -/
theorem secret_third_pattern_reachable_cex :
    searchTds "ésecret: abcd".toList = Option.none ∧
    searchAlnum6W uwAcute "ésecret: abcd".toList = Option.none ∧
    searchSecretWord "ésecret: abcd".toList = some "abcd".toList ∧
    _extract_secret_from_textW uwAcute "ésecret: abcd" = some "abcd" :=
  ⟨by decide, by decide, by decide, by decide⟩

/-- C8 amended: on text of ASCII characters the extractor can never
return via its third pattern — whatever the Unicode word table says, a
third-pattern match forces a second-pattern match (the word "secret"
itself is a standalone 6-character word run), and when the first two
pattern searches fail the third fails too; non-ASCII input, however, can
reach the third branch. -/
theorem secret_third_pattern_ascii_unreachable (uw : Char → Bool) (text : String)
    (hascii : ∀ c ∈ text.toList, c.toNat < 128) :
    (searchSecretWord text.toList ≠ Option.none →
      searchAlnum6W uw text.toList ≠ Option.none) ∧
    (searchTds text.toList = Option.none → searchAlnum6W uw text.toList = Option.none →
      searchSecretWord text.toList = Option.none) := by
  rw [searchAlnum6W_ascii uw text.toList hascii]
  exact ascii_model_third_implies_second text

/-- C8 amended witness: an ASCII text where the third pattern matches
and the second (with Unicode-aware boundaries) indeed matches too. -/
theorem secret_third_pattern_ascii_unreachable_witness :
    "secret: abcd".toList.all (fun c => decide (c.toNat < 128)) = true ∧
    searchSecretWord "secret: abcd".toList ≠ Option.none ∧
    searchAlnum6W uwAcute "secret: abcd".toList ≠ Option.none :=
  ⟨by decide, by decide,
    (secret_third_pattern_ascii_unreachable uwAcute "secret: abcd" (by decide)).1
      (by decide)⟩

/-! ### C6: first-pattern priority -/

theorem takeWhile_eq_of_free {mid post : List Char} (hfree : ∀ c ∈ mid, c ≠ '\x7d') :
    (mid ++ '\x7d' :: post).takeWhile (fun c => c ≠ '\x7d') = mid ∧
    (mid ++ '\x7d' :: post).dropWhile (fun c => c ≠ '\x7d') = '\x7d' :: post := by
  have hall : ∀ c ∈ mid, (fun c => decide (c ≠ '\x7d')) c = true := by
    intro c hc
    simpa using hfree c hc
  have h := takeWhile_append_all mid ('\x7d' :: post) hall
  constructor
  · rw [h.1, List.takeWhile_cons_of_neg (by simp)]
    simp
  · rw [h.2, List.dropWhile_cons_of_neg (by simp)]

theorem matchTds_some : ∀ {cs m : List Char}, matchTds cs = some m →
    tdsShaped m ∧ ∃ post, cs = m ++ post := by
  intro cs m h
  rw [matchTds.eq_def] at h
  split at h
  · next t d s rest =>
      split at h
      · next hcond =>
          simp only [Bool.and_eq_true] at hcond
          obtain ⟨⟨ht, hd⟩, hs⟩ := hcond
          split at h
          · next c2 hhead =>
              split at h
              · exact Option.noConfusion h
              · next hmid =>
                  have hm := Option.some.inj h
                  have hfree : ∀ c ∈ rest.takeWhile (fun c => c ≠ '\x7d'), c ≠ '\x7d' := by
                    intro c hc
                    simpa using List.mem_takeWhile_imp hc
                  have hmidne : rest.takeWhile (fun c => c ≠ '\x7d') ≠ [] := by
                    intro h0
                    rw [h0] at hmid
                    exact hmid rfl
                  have hc2 : c2 = '\x7d' := by
                    have := head_dropWhile_false hhead
                    simpa using this
                  obtain ⟨tail, htail⟩ : ∃ tail,
                      rest.dropWhile (fun c => c ≠ '\x7d') = c2 :: tail := by
                    cases hdd : rest.dropWhile (fun c => c ≠ '\x7d') with
                    | nil => rw [hdd] at hhead; exact Option.noConfusion hhead
                    | cons a tail =>
                        rw [hdd] at hhead
                        have ha : a = c2 := Option.some.inj hhead
                        exact ⟨tail, by rw [ha]⟩
                  refine ⟨?_, tail, ?_⟩
                  · exact hm ▸ ⟨t, d, s, rest.takeWhile (fun c => c ≠ '\x7d'), rfl,
                      ht, hd, hs, hmidne, hfree⟩
                  · rw [← hm]
                    have hrest : rest =
                        (rest.takeWhile (fun c => c ≠ '\x7d') ++ ['\x7d']) ++ tail := by
                      conv_lhs => rw [← List.takeWhile_append_dropWhile
                        (fun c => decide (c ≠ '\x7d')) rest]
                      rw [htail, hc2]
                      simp
                    conv_lhs => rw [hrest]
                    simp
          · exact Option.noConfusion h
      · exact Option.noConfusion h
  · exact Option.noConfusion h

theorem searchTds_some : ∀ {cs m : List Char}, searchTds cs = some m →
    tdsShaped m ∧ ∃ pre post, cs = pre ++ (m ++ post) := by
  intro cs
  induction cs with
  | nil => intro m h; exact Option.noConfusion h
  | cons c rest ihc =>
      intro m h
      rw [searchTds] at h
      cases hm : matchTds (c :: rest) with
      | some m2 =>
          simp only [hm] at h
          obtain ⟨hsh, post, hdec⟩ := matchTds_some hm
          cases h
          exact ⟨hsh, [], post, by rw [List.nil_append, ← hdec]⟩
      | none =>
          simp only [hm] at h
          obtain ⟨hsh, pre, post, hdec⟩ := ihc h
          exact ⟨hsh, c :: pre, post, by rw [List.cons_append, ← hdec]⟩

theorem matchTds_of_shape (t d s : Char) (mid post : List Char)
    (ht : ciEq t 't' = true) (hd : ciEq d 'd' = true) (hs : ciEq s 's' = true)
    (hmid : mid ≠ []) (hfree : ∀ c ∈ mid, c ≠ '\x7d') :
    matchTds (t :: d :: s :: '\x7b' :: (mid ++ '\x7d' :: post)) ≠ Option.none := by
  rw [matchTds]
  rw [if_pos (by simp [ht, hd, hs])]
  obtain ⟨htake, hdrop⟩ := takeWhile_eq_of_free hfree
  rw [htake, hdrop]
  rw [show ('\x7d' :: post).head? = some '\x7d' from rfl]
  dsimp only
  rw [if_neg (by simpa using hmid)]
  exact fun hh => Option.noConfusion hh

theorem searchTds_of_shape :
    ∀ (pre : List Char) (t d s : Char) (mid post : List Char),
      ciEq t 't' = true → ciEq d 'd' = true → ciEq s 's' = true →
      mid ≠ [] → (∀ c ∈ mid, c ≠ '\x7d') →
      searchTds (pre ++ (t :: d :: s :: '\x7b' :: (mid ++ '\x7d' :: post))) ≠
        Option.none := by
  intro pre
  induction pre with
  | nil =>
      intro t d s mid post ht hd hs hmid hfree
      rw [List.nil_append, searchTds]
      cases hm : matchTds (t :: d :: s :: '\x7b' :: (mid ++ '\x7d' :: post)) with
      | some m => simp [hm]
      | none => exact absurd hm (matchTds_of_shape t d s mid post ht hd hs hmid hfree)
  | cons c pre ihp =>
      intro t d s mid post ht hd hs hmid hfree
      rw [List.cons_append, searchTds]
      cases hm : matchTds (c :: (pre ++ (t :: d :: s :: '\x7b' :: (mid ++ '\x7d' :: post)))) with
      | some m => simp [hm]
      | none =>
          simp only [hm]
          exact ihp t d s mid post ht hd hs hmid hfree

/-- C6: the extractor applies the tds-brace pattern with top priority:
whenever the text contains a token of that shape, the result is exactly a
tds-braced token occurring in the text (braces included, original casing
kept), regardless of lower-priority matches elsewhere; and the extractor
returns no value exactly when all three pattern searches fail. -/
theorem extract_secret_tds_priority (text : String) :
    ((∃ pre t d s mid post, text.toList =
        pre ++ (t :: d :: s :: '\x7b' :: (mid ++ '\x7d' :: post)) ∧
        ciEq t 't' = true ∧ ciEq d 'd' = true ∧ ciEq s 's' = true ∧
        mid ≠ [] ∧ ∀ c ∈ mid, c ≠ '\x7d') →
      ∃ m, _extract_secret_from_text text = some m.asString ∧ tdsShaped m ∧
        ∃ pre2 post2, text.toList = pre2 ++ (m ++ post2)) ∧
    (_extract_secret_from_text text = Option.none ↔
      searchTds text.toList = Option.none ∧ searchAlnum6 text.toList = Option.none ∧
        searchSecretWord text.toList = Option.none) := by
  constructor
  · rintro ⟨pre, t, d, s, mid, post, heq, ht, hd, hs, hmid, hfree⟩
    have hne : text ≠ "" := by
      intro h0
      subst h0
      rw [show ("" : String).toList = [] from rfl] at heq
      exact absurd heq.symm (by simp)
    have hsome : searchTds text.toList ≠ Option.none := by
      rw [heq]
      exact searchTds_of_shape pre t d s mid post ht hd hs hmid hfree
    cases hst : searchTds text.toList with
    | none => exact absurd hst hsome
    | some m =>
        obtain ⟨hsh, pre2, post2, hdec⟩ := searchTds_some hst
        refine ⟨m, ?_, hsh, pre2, post2, hdec⟩
        rw [_extract_secret_from_text, if_neg hne, hst]
  · rw [_extract_secret_from_text]
    by_cases hne : text = ""
    · subst hne
      rw [if_pos rfl]
      constructor
      · intro _
        exact ⟨rfl, rfl, rfl⟩
      · intro _
        rfl
    · rw [if_neg hne]
      cases h1 : searchTds text.toList with
      | some m =>
          constructor
          · intro hh
            exact Option.noConfusion hh
          · rintro ⟨hh, -, -⟩
            exact Option.noConfusion hh
      | none =>
          cases h2 : searchAlnum6 text.toList with
          | some m =>
              constructor
              · intro hh
                exact Option.noConfusion hh
              · rintro ⟨-, hh, -⟩
                exact Option.noConfusion hh
          | none =>
              cases h3 : searchSecretWord text.toList with
              | some m =>
                  constructor
                  · intro hh
                    exact Option.noConfusion hh
                  · rintro ⟨-, -, hh⟩
                    exact Option.noConfusion hh
              | none =>
                  constructor
                  · intro _
                    exact ⟨rfl, rfl, rfl⟩
                  · intro _
                    rfl

/-- C6 witness: the spec example, with an earlier lower-priority token
present; the extractor returns exactly the braced token. -/
theorem extract_secret_tds_priority_witness :
    (∃ pre t d s mid post, "foobar123 tds\x7bX9\x7d".toList =
        pre ++ (t :: d :: s :: '\x7b' :: (mid ++ '\x7d' :: post)) ∧
        ciEq t 't' = true ∧ ciEq d 'd' = true ∧ ciEq s 's' = true ∧
        mid ≠ [] ∧ ∀ c ∈ mid, c ≠ '\x7d') ∧
    (∃ m, _extract_secret_from_text "foobar123 tds\x7bX9\x7d" = some m.asString ∧
      tdsShaped m ∧
      ∃ pre2 post2, "foobar123 tds\x7bX9\x7d".toList = pre2 ++ (m ++ post2)) ∧
    _extract_secret_from_text "foobar123 tds\x7bX9\x7d" = some "tds\x7bX9\x7d" := by
  have hyp : ∃ pre t d s mid post, "foobar123 tds\x7bX9\x7d".toList =
      pre ++ (t :: d :: s :: '\x7b' :: (mid ++ '\x7d' :: post)) ∧
      ciEq t 't' = true ∧ ciEq d 'd' = true ∧ ciEq s 's' = true ∧
      mid ≠ [] ∧ ∀ c ∈ mid, c ≠ '\x7d' :=
    ⟨"foobar123 ".toList, 't', 'd', 's', ['X', '9'], [], by decide, rfl, rfl, rfl,
      by decide, by decide⟩
  exact ⟨hyp, (extract_secret_tds_priority "foobar123 tds\x7bX9\x7d").1 hyp, rfl⟩

/-! ### C10: step-log invariant -/

/-- C10 counterexample: a call with max_steps = -1 performs no iterations,
and its steps_done = 0 strictly exceeds max_steps, so steps_done does not
always stay at or below max_steps. -/
theorem step_log_negative_max_cex :
    (solve_quiz L0 env0 "u" 3 (-1)).steps_done = 0 ∧
    ¬ (solve_quiz L0 env0 "u" 3 (-1)).steps_done ≤ -1 :=
  ⟨by decide, by decide⟩

/-- C10 amended: every run's step records carry consecutive 1-based step
indices in append order, steps_done equals the number of records and
never exceeds max(max_steps, 0), and every record except possibly the
final one is error-free (so at most one record carries an error, only in
final position). -/
theorem solve_quiz_step_log (L : PyLib) (env : Nat → IterEnv) (url : String)
    (req max_ : Int) :
    (solve_quiz L env url req max_).steps_done =
      ((solve_quiz L env url req max_).steps.length : Int) ∧
    (solve_quiz L env url req max_).steps_done ≤ max max_ 0 ∧
    (∀ i r, (solve_quiz L env url req max_).steps.get? i = some r →
      r.step = i + 1) ∧
    (∀ i r, (solve_quiz L env url req max_).steps.get? i = some r →
      i + 1 < (solve_quiz L env url req max_).steps.length →
      r.error = Option.none) := by
  have h := chainLoop_invariant L env max_ max_.toNat 0 (.str url) []
    (by simp) (by intro i r hg; exact absurd hg (by simp))
    (by intro i r hg; exact absurd hg (by simp))
  refine ⟨rfl, ?_, h.2.1, h.2.2⟩
  have h1 := h.1
  simp only [List.length_nil, Nat.zero_add] at h1
  have h2 : ((chainLoop L env max_ max_.toNat 0 (.str url) []).length : Int) ≤
      (max_.toNat : Int) := by exact_mod_cast h1
  calc (solve_quiz L env url req max_).steps_done
      ≤ (max_.toNat : Int) := h2
    _ = max max_ 0 := Int.toNat_eq_max max_

/-- C10 witness: a two-step run with consecutive indices, in-bound
steps_done and an error-free non-final record. -/
theorem solve_quiz_step_log_witness :
    (solve_quiz L0 envCont "http://s" 3 2).steps_done ≤ max 2 0 ∧
    ((solve_quiz L0 envCont "http://s" 3 2).steps.getD 0 dummyRec).step = 0 + 1 ∧
    ((solve_quiz L0 envCont "http://s" 3 2).steps.getD 0 dummyRec).error = Option.none :=
  ⟨(solve_quiz_step_log L0 envCont "http://s" 3 2).2.1,
    (solve_quiz_step_log L0 envCont "http://s" 3 2).2.2.1 0 _ rfl,
    (solve_quiz_step_log L0 envCont "http://s" 3 2).2.2.2 0 _ rfl (by decide)⟩

/-! ### C1: outcome of a run -/

/-- C1 counterexample: a run whose first fetch raises ends with outcome
"chain_with_errors", yet its single step record carries no submission
status at all, so every recorded submission status is (vacuously) below
400 while the outcome is not "chain_completed". -/
theorem solve_quiz_outcome_cex :
    (solve_quiz L0 envErr "http://x" 3 10).result = "chain_with_errors" ∧
    (solve_quiz L0 envErr "http://x" 3 10).result ≠ "chain_completed" ∧
    (solve_quiz L0 envErr "http://x" 3 10).steps.all
      (fun r => r.submitStatus.isNone) = true ∧
    (solve_quiz L0 envErr "http://x" 3 10).steps.length = 1 :=
  ⟨by decide, by decide, by decide, by decide⟩

theorem result_string_iff (steps : List StepRecord) :
    ((if steps.all (fun s => decide ((s.submitStatus.getD 500) < 400)) then
        "chain_completed" else "chain_with_errors") = "chain_completed" ↔
      ∀ r ∈ steps, ∃ st, r.submitStatus = some st ∧ st < 400) := by
  constructor
  · intro h r hr
    by_cases hall : steps.all (fun s => decide ((s.submitStatus.getD 500) < 400)) = true
    · have hd := List.all_eq_true.mp hall r hr
      simp only [decide_eq_true_eq] at hd
      cases hsub : r.submitStatus with
      | none =>
          rw [hsub] at hd
          exact absurd hd (by decide)
      | some st =>
          rw [hsub] at hd
          exact ⟨st, rfl, by simpa using hd⟩
    · rw [if_neg hall] at h
      exact absurd h (by decide)
  · intro hall
    rw [if_pos]
    apply List.all_eq_true.mpr
    intro r hr
    obtain ⟨st, heq, hlt⟩ := hall r hr
    simp [heq, hlt]

/-- C1 amended: the outcome is "chain_completed" exactly when every step
record carries a submission status and every such status is below 400 (a
record lacking a status, possible only for a failed final iteration,
counts against completion); moreover a run whose every iteration up to
max_steps continues with a submission status below 400 ends with exactly
max_steps records and outcome "chain_completed". -/
theorem solve_quiz_outcome (L : PyLib) (env : Nat → IterEnv) (url : String)
    (req max_ : Int) :
    ((solve_quiz L env url req max_).result = "chain_completed" ↔
      ∀ r ∈ (solve_quiz L env url req max_).steps,
        ∃ st, r.submitStatus = some st ∧ st < 400) ∧
    (0 ≤ max_ → url ≠ "" →
      (∀ (k : Int) (v : PyVal), 0 < k → k ≤ max_ → pyTruthy v = true →
        ∃ r nu, runIter L (env k.toNat) k v = .next r nu ∧
          ∃ st, r.submitStatus = some st ∧ st < 400) →
      (solve_quiz L env url req max_).steps.length = max_.toNat ∧
      (solve_quiz L env url req max_).result = "chain_completed") := by
  constructor
  · exact result_string_iff (chainLoop L env max_ max_.toNat 0 (.str url) [])
  · intro hmax hurl H
    have htr : pyTruthy (.str url) = true := by
      simp only [pyTruthy, bne_iff_ne]
      exact hurl
    have h := chainLoop_all_cont L env max_ max_.toNat 0 (.str url) []
      le_rfl (by rw [Int.toNat_of_nonneg hmax]; ring) htr
      (fun k v hk hk2 hv => H k v hk hk2 hv)
    have hlen : (solve_quiz L env url req max_).steps.length = max_.toNat := by
      have h1 := h.1
      simpa using h1
    refine ⟨hlen, ?_⟩
    apply (result_string_iff (chainLoop L env max_ max_.toNat 0 (.str url) [])).mpr
    intro r hr
    rcases h.2 r hr with hmem | hst
    · exact absurd hmem (List.not_mem_nil r)
    · exact hst

theorem envCont_runIter (k : Int) (v : PyVal) :
    runIter L0 (envCont k.toNat) k v = .next (contRec k v) (.str "http://n") := rfl

/-- C1 witness: a two-step all-success run reaches the step cap with
outcome "chain_completed". -/
theorem solve_quiz_outcome_witness :
    (solve_quiz L0 envCont "http://s" 3 2).steps.length = (2 : Int).toNat ∧
    (solve_quiz L0 envCont "http://s" 3 2).result = "chain_completed" :=
  (solve_quiz_outcome L0 envCont "http://s" 3 2).2 (by decide) (by decide)
    (fun k v hk hk2 hv =>
      ⟨contRec k v, .str "http://n", envCont_runIter k v, 200, rfl, by decide⟩)

/-! ### C2: normalizer idempotence -/

theorem pyLookup_map_stringify (L : PyLib) (obj : List (String × PyVal)) (key : String) :
    pyLookup (obj.map (fun kv => (kv.1, if isPrimitive kv.2 then kv.2 else .str (L.str kv.2))))
        key =
      (pyLookup obj key).map (fun v => if isPrimitive v then v else .str (L.str v)) := by
  induction obj with
  | nil => rfl
  | cons kv t ih =>
      obtain ⟨k, v⟩ := kv
      simp only [List.map_cons, pyLookup]
      by_cases hk : k = key
      · rw [if_pos hk, if_pos hk]
        rfl
      · rw [if_neg hk, if_neg hk, ih]

theorem attempt_number_shape {v : String} {nv : PyVal}
    (h : _attempt_number v = some nv) : (∃ n, nv = .int n) ∨ ∃ q, nv = .float q := by
  simp only [_attempt_number] at h
  split at h
  · exact Or.inl ⟨_, (Option.some.inj h).symm⟩
  · split at h
    · exact Or.inr ⟨_, (Option.some.inj h).symm⟩
    · exact Option.noConfusion h

theorem flatten_output_dict_clean (L : PyLib) (obj m : List (String × PyVal))
    (h : _flatten_answer_object L obj = .dict m) : cleanKvs m := by
  unfold _flatten_answer_object at h
  split at h
  · next v hv =>
      split at h
      · next hp =>
          rw [h] at hp
          exact absurd hp (by simp [isPrimitive])
      · split at h
        · exact PyVal.noConfusion h
        · exact PyVal.noConfusion h
  · next hnone =>
      have hm := (PyVal.dict.inj h).symm
      subst hm
      constructor
      · rw [pyLookup_map_stringify, hnone]
        rfl
      · intro kv hkv
        rcases List.mem_map.mp hkv with ⟨kv0, _, hkv0⟩
        rw [← hkv0]
        by_cases hp : isPrimitive kv0.2 = true
        · show isPrimitive (if isPrimitive kv0.2 = true then kv0.2 else .str (L.str kv0.2)) = true
          rw [if_pos hp]
          exact hp
        · show isPrimitive (if isPrimitive kv0.2 = true then kv0.2 else .str (L.str kv0.2)) = true
          rw [if_neg hp]
          rfl

theorem normalize_dict_clean (L : PyLib) (a : PyVal) (m : List (String × PyVal))
    (h : _normalize_answer_for_submission L a = .dict m) : cleanKvs m := by
  cases a with
  | dict kvs => exact flatten_output_dict_clean L kvs m h
  | str s0 =>
      simp only [_normalize_answer_for_submission] at h
      split at h
      · exact PyVal.noConfusion h
      · split at h
        · next nv hnv =>
            rcases attempt_number_shape hnv with ⟨n, hn⟩ | ⟨q, hq⟩
            · rw [hn] at h; exact PyVal.noConfusion h
            · rw [hq] at h; exact PyVal.noConfusion h
        · split at h
          · next j hj =>
              split at h
              · simp only [_normalize_str_tail] at h
                split at h
                · exact PyVal.noConfusion h
                · exact PyVal.noConfusion h
              · split at h
                · exact flatten_output_dict_clean L _ m h
                · rename_i hnot
                  exact (hnot m h).elim
          · simp only [_normalize_str_tail] at h
            split at h
            · exact PyVal.noConfusion h
            · exact PyVal.noConfusion h
  | none => exact PyVal.noConfusion h
  | bool b => exact PyVal.noConfusion h
  | int n => exact PyVal.noConfusion h
  | float q => exact PyVal.noConfusion h
  | list xs => exact PyVal.noConfusion h

theorem flatten_clean_fixed (L : PyLib) (m : List (String × PyVal)) (h : cleanKvs m) :
    _flatten_answer_object L m = .dict m := by
  unfold _flatten_answer_object
  rw [h.1]
  have hid : ∀ kv ∈ m, (kv.1, if isPrimitive kv.2 then kv.2 else .str (L.str kv.2)) = kv := by
    intro kv hkv
    rw [if_pos (h.2 kv hkv)]
  rw [List.map_congr_left hid, List.map_id']

/-- C2 counterexample: normalizing the mapping with answer "yes" yields
the string "yes", but normalizing that output again yields the boolean
true, so the normalizer is not idempotent on its own output. -/
theorem normalize_not_idempotent_cex :
    _normalize_answer_for_submission L0
        (_normalize_answer_for_submission L0 (.dict [("answer", .str "yes")])) ≠
      _normalize_answer_for_submission L0 (.dict [("answer", .str "yes")]) := fun h => by
  have h2 : PyVal.bool true = PyVal.str "yes" := h
  exact PyVal.noConfusion h2

/-- C2 amended: normalization is idempotent on its boolean, number and
mapping outputs; a string output may be re-interpreted by a second pass
(as "yes" is). -/
theorem normalize_idempotent_on_stable (L : PyLib) (a : PyVal)
    (h : isStableOutput (_normalize_answer_for_submission L a) = true) :
    _normalize_answer_for_submission L (_normalize_answer_for_submission L a) =
      _normalize_answer_for_submission L a := by
  cases hn : _normalize_answer_for_submission L a with
  | bool b => rfl
  | int n => rfl
  | float q => rfl
  | dict m =>
      exact flatten_clean_fixed L m (normalize_dict_clean L a m hn)
  | none => rw [hn] at h; exact Bool.noConfusion h
  | str s => rw [hn] at h; exact Bool.noConfusion h
  | list xs => rw [hn] at h; exact Bool.noConfusion h

/-- C2 amended witness: a flat mapping output is a fixed point. -/
theorem normalize_idempotent_on_stable_witness :
    isStableOutput (_normalize_answer_for_submission L0 (.dict [("x", .int 1)])) = true ∧
    _normalize_answer_for_submission L0
        (_normalize_answer_for_submission L0 (.dict [("x", .int 1)])) =
      _normalize_answer_for_submission L0 (.dict [("x", .int 1)]) :=
  ⟨rfl, normalize_idempotent_on_stable L0 (.dict [("x", .int 1)]) rfl⟩

/-- C3 amended witness: concrete instances of all three failure-mode
conjuncts. -/
theorem call_aipipe_failure_modes_witness :
    isFailure (_call_aipipe (some "tok") (some "http://api") (.error "timeout")) = true ∧
    isFailure (_call_aipipe (some "tok") (some "http://api")
      (.ok { status := 500, jsonBody := some (.dict []) })) = true ∧
    _call_aipipe (some "tok") (some "http://api")
      (.ok { status := 200, jsonBody := some (.dict [("other", .int 1)]) }) =
      .ok (.str "") :=
  ⟨call_aipipe_failure_modes.1 (some "tok") (some "http://api") "timeout",
    call_aipipe_failure_modes.2.1 (some "tok") (some "http://api") _ (by norm_num),
    call_aipipe_failure_modes.2.2 (some "tok") (some "http://api") 200 [("other", .int 1)]
      rfl rfl (by norm_num) (by norm_num) rfl⟩

end QuizSolver



